import Mathlib

/-!
Verification of the smpcc runtime core against its specification.

This file gives a shallow embedding of two source files:
  * `runtime/gc/yao/gen/gen.go` — the Yao garbled-circuit generator VM,
  * `runtime/gmw/commodity.go`  — the commodity (correlated-randomness) server
    and client for multiplication triples and mask triples,
together with the small library primitives they use (`gc.Key`, `gc.XorKey`,
`bit.GetBit`, `ot.XorBytes`, `gmw.AndBytes`, `gmw.combine`), which live in
packages outside the extracted sources and are modelled from the spec.

Conventions of the embedding:
  * Go byte slices become `List Nat` (each entry a byte value; theorems carry
    `< 256` bounds where the arithmetic needs them).
  * The AES block cipher `gc.Encrypt` / `gc.Decrypt` is abstract: every
    function that encrypts takes the cipher as an explicit parameter
    `E : gc.EncFun` (and `D` for decryption).
  * Randomness (`gc.GenKey`, PRG streams) is passed in explicitly: fresh wire
    keys as a stream `fresh : Nat → gc.Key`, PRG bytes as `Nat → Nat`.
  * Go panics become `Option.none`; a function with no panic path is total.
  * Channel sends become an explicit list of `gen.Effect` values returned
    alongside the result, in program order.
-/

/-- A cryptographic key: a byte string (`gc.Key`, a `[]byte` of length
`KEY_SIZE` in the source; the embedding does not fix the length). -/
abbrev gc.Key := List Nat

/-- A ciphertext slot (`gc.Ciphertext`): a byte string. -/
abbrev gc.Ciphertext := List Nat

/-- A garbled table (`gc.GarbledTable`): an array of ciphertext slots. -/
abbrev gc.GarbledTable := List gc.Ciphertext

/-- A garbled wire: the ordered pair of labels for logical 0 and 1.
In the source `gc.Wire` is a `[]gc.Key` used at indices 0 and 1. -/
structure gc.Wire where
  k0 : gc.Key
  k1 : gc.Key
deriving DecidableEq

instance : Inhabited gc.Wire := ⟨⟨[], []⟩⟩

/-- The label of wire `w` for logical value `v`: `w[0]` or `w[1]`. -/
def gc.Wire.sel (w : gc.Wire) (v : Bool) : gc.Key := if v then w.k1 else w.k0

/-- The type of the abstract single-block cipher `gc.Encrypt` (and of
`gc.Decrypt`).  Modelled from the spec: `Encrypt(key, plaintext)` is a
length-preserving deterministic symmetric encryption of a block under a key;
the concrete AES instance lives in the `gc` package outside src/. -/
abbrev gc.EncFun := gc.Key → List Nat → List Nat

/-- Modelled from the spec: `gc.XorKey(a, b)` is the byte-parallel XOR of two
equal-length keys (the `gc` package is outside src/). -/
def gc.XorKey (a b : gc.Key) : gc.Key := List.zipWith Nat.xor a b

/-- Modelled from the spec: `bit.GetBit(slice, i)` reads bit `i` of a
bit-packed buffer with little-endian bit indexing (bit `i` is bit `i % 8` of
byte `i / 8`); indexing past the end of the buffer panics, modelled as
`none`. The `bit` package is outside src/. -/
def bit.GetBit (l : List Nat) (i : Nat) : Option Nat :=
  (l[i / 8]?).map (fun b => (b >>> (i % 8)) &&& 1)

/-- Modelled from the spec: `ot.XorBytes(a, b)` is the byte-parallel XOR of
two equal-length byte slices (the `ot` package is outside src/; it is applied
only at equal lengths in the embedded code). -/
def ot.XorBytes (a b : List Nat) : List Nat := List.zipWith Nat.xor a b

/-- Modelled from the spec: `gmw.AndBytes(a, b)` is the byte-parallel AND of
two equal-length byte slices (defined elsewhere in the `gmw` package). -/
def gmw.AndBytes (a b : List Nat) : List Nat := List.zipWith Nat.land a b

/-! ## The generator VM (`runtime/gc/yao/gen/gen.go`) -/

/-- `KEY_SIZE = aes.BlockSize` (16 bytes). -/
def gen.KEY_SIZE : Nat := 16

/-- `slot(keys)`: the table index formed from the point-and-permute bits: for
each key in order, shift left and add `key[0] % 2`. -/
def gen.slot (keys : List gc.Key) : Nat :=
  keys.foldl (fun result key => 2 * result + key.headD 0 % 2) 0

/-- The point-and-permute selector bit of a key: `key[0] % 2`. -/
def gen.lsb (k : gc.Key) : Nat := k.headD 0 % 2

/-- `encrypt(keys, result)`: layered encryption, applying the keys in slice
order (so the first key is the innermost encryption). -/
def gen.encrypt (E : gc.EncFun) (keys : List gc.Key) (result : List Nat) : List Nat :=
  keys.foldl (fun r k => E k r) result

/-- `decrypt(keys, ciphertext)`: layered decryption, peeling keys from the
last to the first. -/
def gen.decrypt (D : gc.EncFun) (keys : List gc.Key) (ciphertext : List Nat) : List Nat :=
  keys.foldr (fun k r => D k r) ciphertext

/-- `encrypt_slot(t, plaintext, keys...)`: store `encrypt(keys, plaintext)`
at index `slot(keys)` of the table. -/
def gen.encrypt_slot (E : gc.EncFun) (t : gc.GarbledTable) (plaintext : List Nat)
    (keys : List gc.Key) : gc.GarbledTable :=
  t.set (gen.slot keys) (gen.encrypt E keys plaintext)

/-- `Decrypt(t, keys...)`: decrypt the slot of `t` selected by the keys'
point-and-permute bits. -/
def gen.Decrypt (D : gc.EncFun) (t : gc.GarbledTable) (keys : List gc.Key) : List Nat :=
  gen.decrypt D keys (t.getD (gen.slot keys) [])

/-- `init_key0()`: the free-XOR constant `key0` is a random key whose least
significant bit of byte 0 is forced to 1 (`key0[0] |= 1`).  The random key is
the parameter `r`. -/
def gen.init_key0 (r : gc.Key) : gc.Key :=
  match r with
  | [] => []
  | b :: bs => (b ||| 1) :: bs

/-- `genWire()`: a fresh wire from a random key `r`: `k0 = r`,
`k1 = XorKey(k0, key0)`. -/
def gen.genWire (key0 r : gc.Key) : gc.Wire := ⟨r, gc.XorKey r key0⟩

/-- One channel interaction performed by the generator VM (sends only;
receives are modelled as explicit input streams). -/
inductive gen.Effect where
  | sendT (t : gc.GarbledTable)
  | sendK (k : gc.Key)
  | otSend (m0 m1 : gc.Key)
deriving DecidableEq

/-- The garbled table built by `And` for one wire position: slots for
(0,0), (0,1), (1,0) hold the output label `w[0]`, slot (1,1) holds `w[1]`. -/
def gen.andTable (E : gc.EncFun) (w ai bi : gc.Wire) : gc.GarbledTable :=
  let t0 : gc.GarbledTable := List.replicate 4 []
  let t1 := gen.encrypt_slot E t0 w.k0 [ai.k0, bi.k0]
  let t2 := gen.encrypt_slot E t1 w.k0 [ai.k0, bi.k1]
  let t3 := gen.encrypt_slot E t2 w.k0 [ai.k1, bi.k0]
  gen.encrypt_slot E t3 w.k1 [ai.k1, bi.k1]

/-- The garbled table built by `Or` for one wire position: slot (0,0) holds
`w[0]`, the other three slots hold `w[1]`. -/
def gen.orTable (E : gc.EncFun) (w ai bi : gc.Wire) : gc.GarbledTable :=
  let t0 : gc.GarbledTable := List.replicate 4 []
  let t1 := gen.encrypt_slot E t0 w.k0 [ai.k0, bi.k0]
  let t2 := gen.encrypt_slot E t1 w.k1 [ai.k0, bi.k1]
  let t3 := gen.encrypt_slot E t2 w.k1 [ai.k1, bi.k0]
  gen.encrypt_slot E t3 w.k1 [ai.k1, bi.k1]

/-- `vm.And(a, b)`: panics (`none`) on length mismatch; otherwise samples a
fresh output wire per position and sends one 4-slot garbled table per
position. -/
def gen.And (E : gc.EncFun) (fresh : Nat → gc.Key) (key0 : gc.Key)
    (a b : List gc.Wire) : Option (List gc.Wire × List gen.Effect) :=
  if a.length = b.length then
    some ((List.range a.length).map (fun i => gen.genWire key0 (fresh i)),
          (List.range a.length).map (fun i =>
            .sendT (gen.andTable E (gen.genWire key0 (fresh i))
              (a.getD i default) (b.getD i default))))
  else none

/-- `vm.Or(a, b)`: as `And` but with the OR truth table. -/
def gen.Or (E : gc.EncFun) (fresh : Nat → gc.Key) (key0 : gc.Key)
    (a b : List gc.Wire) : Option (List gc.Wire × List gen.Effect) :=
  if a.length = b.length then
    some ((List.range a.length).map (fun i => gen.genWire key0 (fresh i)),
          (List.range a.length).map (fun i =>
            .sendT (gen.orTable E (gen.genWire key0 (fresh i))
              (a.getD i default) (b.getD i default))))
  else none

/-- `vm.Xor(a, b)`: free XOR; panics on length mismatch, performs no IO, and
returns per position the wire `(a.k0 XOR b.k0, a.k0 XOR b.k1)`. -/
def gen.Xor (a b : List gc.Wire) : Option (List gc.Wire × List gen.Effect) :=
  if a.length = b.length then
    some ((List.range a.length).map (fun i =>
      ⟨gc.XorKey (a.getD i default).k0 (b.getD i default).k0,
       gc.XorKey (a.getD i default).k0 (b.getD i default).k1⟩), [])
  else none

/-- `init_constants(io)`: generate `const0` then `const1` and send
`const0[0]` and `const1[1]`.  The two fresh random keys are `r0`, `r1`. -/
def gen.init_constants (key0 r0 r1 : gc.Key) : gc.Wire × gc.Wire × List gen.Effect :=
  (gen.genWire key0 r0, gen.genWire key0 r1,
   [.sendK (gen.genWire key0 r0).k0, .sendK (gen.genWire key0 r1).k1])

/-- `vm.True()`: returns the constant-1 wire (`const1`). -/
def gen.True (key0 r0 r1 : gc.Key) : List gc.Wire :=
  [(gen.init_constants key0 r0 r1).2.1]

/-- `vm.False()`: returns the constant-0 wire (`const0`). -/
def gen.False (key0 r0 r1 : gc.Key) : List gc.Wire :=
  [(gen.init_constants key0 r0 r1).1]

/-- `resolveKey(w, k)`: 0 if `k` equals `w[0]`, 1 if it equals `w[1]`,
otherwise panic (`none`). -/
def gen.resolveKey (w : gc.Wire) (k : gc.Key) : Option Nat :=
  if k = w.k0 then some 0
  else if k = w.k1 then some 1
  else none

/-- The loop of `vm.RevealTo0`: receive one key per wire (the stream
`received`, indexed from `i`) and resolve it; a resolution failure panics. -/
def gen.revealLoop (received : Nat → gc.Key) : List gc.Wire → Nat → Option (List Bool)
  | [], _ => some []
  | w :: ws, i =>
    match gen.resolveKey w (received i) with
    | none => none
    | some v =>
      (gen.revealLoop received ws (i + 1)).map
        (fun rest => (if v = 0 then Bool.false else Bool.true) :: rest)

/-- `vm.RevealTo0(a)`: resolve one received key per wire into a boolean. -/
def gen.RevealTo0 (a : List gc.Wire) (received : Nat → gc.Key) : Option (List Bool) :=
  gen.revealLoop received a 0

/-- Overwrite byte 0 of a key (`w[0][0] = 0`, `w[1][0] = 1` in
`RevealTo1`). -/
def gen.setByte0 (k : gc.Key) (v : Nat) : gc.Key :=
  match k with
  | [] => []
  | _ :: bs => v :: bs

/-- The per-position fresh wire of `RevealTo1` after its byte-0 overwrite:
byte 0 of `k0` becomes the literal 0, byte 0 of `k1` the literal 1. -/
def gen.revealWire (key0 r : gc.Key) : gc.Wire :=
  let w := gen.genWire key0 r
  ⟨gen.setByte0 w.k0 0, gen.setByte0 w.k1 1⟩

/-- The 2-slot table sent by `RevealTo1` for one wire position. -/
def gen.revealTable (E : gc.EncFun) (key0 r : gc.Key) (ai : gc.Wire) : gc.GarbledTable :=
  let w := gen.revealWire key0 r
  gen.encrypt_slot E (gen.encrypt_slot E (List.replicate 2 []) w.k0 [ai.k0]) w.k1 [ai.k1]

/-- `vm.RevealTo1(a)`: send one 2-slot table per wire; nothing is returned. -/
def gen.RevealTo1 (E : gc.EncFun) (fresh : Nat → gc.Key) (key0 : gc.Key)
    (a : List gc.Wire) : List gen.Effect :=
  (List.range a.length).map (fun i =>
    .sendT (gen.revealTable E key0 (fresh i) (a.getD i default)))

/-- `vm.ShareTo0(bits)`: one fresh wire per bit, both labels offered over
OT.  No panic path. -/
def gen.ShareTo0 (fresh : Nat → gc.Key) (key0 : gc.Key) (bits : Nat) :
    List gc.Wire × List gen.Effect :=
  ((List.range bits).map (fun i => gen.genWire key0 (fresh i)),
   (List.range bits).map (fun i =>
     .otSend (gen.genWire key0 (fresh i)).k0 (gen.genWire key0 (fresh i)).k1))

/-- `vm.ShareTo1(a, bits)`: panics when `bits > 64`; otherwise one fresh
wire per bit and the single label selected by bit `i` of `a` is sent. -/
def gen.ShareTo1 (fresh : Nat → gc.Key) (key0 : gc.Key) (a bits : Nat) :
    Option (List gc.Wire × List gen.Effect) :=
  if bits > 64 then none
  else
    some ((List.range bits).map (fun i => gen.genWire key0 (fresh i)),
          (List.range bits).map (fun i =>
            if (a >>> i) % 2 = 0 then .sendK (gen.genWire key0 (fresh i)).k0
            else .sendK (gen.genWire key0 (fresh i)).k1))

/-- `vm.Random(bits)`: panics when `bits < 1`; otherwise one fresh wire per
bit, the two labels offered over OT in an order decided by a random bit
(`random` is the random byte buffer drawn by `GenKey`). -/
def gen.Random (fresh : Nat → gc.Key) (key0 : gc.Key) (random : List Nat)
    (bits : Nat) : Option (List gc.Wire × List gen.Effect) :=
  if bits < 1 then none
  else
    some ((List.range bits).map (fun i => gen.genWire key0 (fresh i)),
          (List.range bits).map (fun i =>
            if bit.GetBit random i = some 0 then
              .otSend (gen.genWire key0 (fresh i)).k0 (gen.genWire key0 (fresh i)).k1
            else
              .otSend (gen.genWire key0 (fresh i)).k1 (gen.genWire key0 (fresh i)).k0))

/-! ## The commodity server and client (`runtime/gmw/commodity.go`)

A party's PRG is modelled as its infinite byte stream `Nat → Nat`; position
`p` is the `p`-th byte the stream would produce.  `XORKeyStream(buf, buf)` on
a zero buffer of `n` bytes starting at stream position `off` therefore yields
the bytes at positions `off, …, off+n-1`.  The commodity server holds the
same streams as the clients (it distributed the seeds), so one list
`streams : List (Nat → Nat)` serves both sides; the designated client is the
head of the list.  Both sides consume each stream in the same order
(`a`/`A` first, then `b`/`B`, then `c`/`C`), as the source does. -/

/-- The `n` bytes a PRG stream produces starting at position `off`. -/
def gmw.bytesOf (s : Nat → Nat) (off n : Nat) : List Nat :=
  (List.range n).map (fun k => s (off + k))

/-- The server's aggregation loop: starting from a zero buffer, XOR in each
party's next `n` stream bytes (stream positions `off, …, off+n-1`). -/
def gmw.serverAgg (streams : List (Nat → Nat)) (off n : Nat) : List Nat :=
  streams.foldl (fun acc s => ot.XorBytes acc (gmw.bytesOf s off n)) (List.replicate n 0)

/-- A multiplication triple of 32-bit words (`gmw.Triple`, defined elsewhere
in the `gmw` package as three `uint32` fields). -/
structure gmw.Triple where
  a : Nat
  b : Nat
  c : Nat
deriving DecidableEq

instance : Inhabited gmw.Triple := ⟨⟨0, 0, 0⟩⟩

/-- Modelled from the spec: `combine` (defined elsewhere in the `gmw`
package) packs 4 bytes into one 32-bit word, little-endian. -/
def gmw.combine (x : List Nat) : Nat :=
  x.getD 0 0 ||| (x.getD 1 0 <<< 8) ||| (x.getD 2 0 <<< 16) ||| (x.getD 3 0 <<< 24)

/-- The 4-byte chunk of a buffer consumed by triple `i` (the source advances
slices by 4: `combine(a[:4]); a = a[4:]`). -/
def gmw.byte4 (l : List Nat) (i : Nat) : List Nat :=
  [l.getD (4 * i) 0, l.getD (4 * i + 1) 0, l.getD (4 * i + 2) 0, l.getD (4 * i + 3) 0]

/-- `CommodityServerState.TripleCorrection()`: aggregate all parties'
`(a, b, c)` stream bytes, and send `desired XOR c` where
`desired = AndBytes(a, b)`.  `NT` stands for the `NUM_TRIPLES` constant
(defined elsewhere in the `gmw` package); each triple is 4 bytes wide. -/
def gmw.TripleCorrection (streams : List (Nat → Nat)) (NT : Nat) : List Nat :=
  let numBytes := NT * 4
  let a := gmw.serverAgg streams 0 numBytes
  let b := gmw.serverAgg streams numBytes numBytes
  let c := gmw.serverAgg streams (2 * numBytes) numBytes
  ot.XorBytes (gmw.AndBytes a b) c

/-- `CommodityClientState.triple32()`: draw `(a, b, c)` buffers from the
party's stream; the designated party (`correction = some …`) XORs the
server's correction into `c`; pack into `NT` triples of 4-byte words. -/
def gmw.triple32 (stream : Nat → Nat) (NT : Nat) (correction : Option (List Nat)) :
    List gmw.Triple :=
  let numBytes := NT * 4
  let a := gmw.bytesOf stream 0 numBytes
  let b := gmw.bytesOf stream numBytes numBytes
  let c0 := gmw.bytesOf stream (2 * numBytes) numBytes
  let c := match correction with
           | none => c0
           | some corr => ot.XorBytes c0 corr
  (List.range NT).map (fun i =>
    ⟨gmw.combine (gmw.byte4 a i), gmw.combine (gmw.byte4 b i), gmw.combine (gmw.byte4 c i)⟩)

/-- A mask triple (`gmw.MaskTriple`, defined elsewhere in the `gmw`
package): a bit share `a` (a byte, 0 or 1) and byte strings `B`, `C`. -/
structure gmw.MaskTriple where
  a : Nat
  B : List Nat
  C : List Nat
deriving DecidableEq

instance : Inhabited gmw.MaskTriple := ⟨⟨0, [], []⟩⟩

/-- The `nB`-byte chunk of a buffer consumed by mask triple `i` (the source
advances slices by `nB`: `b[:nB]; b = b[nB:]`). -/
def gmw.chunk (l : List Nat) (nB i : Nat) : List Nat :=
  (List.range nB).map (fun k => l.getD (nB * i + k) 0)

/-- The packing loop of `maskTriple`: for indices `i, i+1, …, i+n-1`, read
bit `i` of the `a` buffer (panicking — `none` — when out of range, exactly
as `bit.GetBit` does) and take the next `nB`-byte chunks of `b` and `c`. -/
def gmw.buildMT (a b c : List Nat) (nB : Nat) : Nat → Nat → Option (List gmw.MaskTriple)
  | _, 0 => some []
  | i, n + 1 =>
    match bit.GetBit a i with
    | none => none
    | some v =>
      (gmw.buildMT a b c nB (i + 1) n).map
        (fun rest => ⟨v, gmw.chunk b nB i, gmw.chunk c nB i⟩ :: rest)

/-- `CommodityClientState.maskTriple(numTriples, numBytesTriple)`: draw an
`nT/8`-byte bit buffer `a` and `nT*nB`-byte buffers `b`, `c` from the
party's stream; the designated party XORs the server's correction into `c`;
pack into `nT` mask triples, reading bit `i` of `a` for each. -/
def gmw.maskTriple (stream : Nat → Nat) (nT nB : Nat) (correction : Option (List Nat)) :
    Option (List gmw.MaskTriple) :=
  let a := gmw.bytesOf stream 0 (nT / 8)
  let b := gmw.bytesOf stream (nT / 8) (nT * nB)
  let c0 := gmw.bytesOf stream (nT / 8 + nT * nB) (nT * nB)
  let c := match correction with
           | none => c0
           | some corr => ot.XorBytes c0 corr
  gmw.buildMT a b c nB 0 nT

/-- The correction-building loop of `MaskTripleCorrection`: for each triple
index, if aggregate bit `i` of `A` is 1 the correction chunk is
`B-chunk XOR C-chunk` (via `ot.XorBytesTo`), else it is the `C`-chunk; the
chunks are concatenated into one flat buffer.  Reading bit `i` out of range
panics (`none`). -/
def gmw.buildCorr (A b c : List Nat) (nB : Nat) : Nat → Nat → Option (List Nat)
  | _, 0 => some []
  | i, n + 1 =>
    match bit.GetBit A i with
    | none => none
    | some v =>
      (gmw.buildCorr A b c nB (i + 1) n).map
        (fun rest =>
          (if v = 1 then ot.XorBytes (gmw.chunk b nB i) (gmw.chunk c nB i)
           else gmw.chunk c nB i) ++ rest)

/-- `CommodityServerState.MaskTripleCorrection(numTriples, numBytesTriple)`:
aggregate all parties' `(A, B, C)` stream bytes and send the per-triple
correction so that the aggregate satisfies `C = (if a then B else 0)`. -/
def gmw.MaskTripleCorrection (streams : List (Nat → Nat)) (nT nB : Nat) :
    Option (List Nat) :=
  let A := gmw.serverAgg streams 0 (nT / 8)
  let B := gmw.serverAgg streams (nT / 8) (nT * nB)
  let C := gmw.serverAgg streams (nT / 8 + nT * nB) (nT * nB)
  gmw.buildCorr A B C nB 0 nT

/-- XOR-fold of a list of words (aggregation "over all parties"). -/
def gmw.xorFold (l : List Nat) : Nat := l.foldr Nat.xor 0

/-- XOR-fold of a list of equal-length byte strings. -/
def gmw.xorBytesFold (l : List (List Nat)) (n : Nat) : List Nat :=
  l.foldr ot.XorBytes (List.replicate n 0)

/-- Boolean XOR-fold (used to push `Nat.testBit` through `gmw.xorFold`). -/
def gmw.bXorFold (l : List Bool) : Bool := l.foldr Bool.xor false

/-- The scenario of one triple batch: every party runs `triple32` on its own
stream; the designated party (the head of the stream list) additionally XORs
in the correction from one run of the server's `TripleCorrection`. -/
def gmw.tripleRun (s0 : Nat → Nat) (rest : List (Nat → Nat)) (NT : Nat) :
    List (List gmw.Triple) :=
  gmw.triple32 s0 NT (some (gmw.TripleCorrection (s0 :: rest) NT)) ::
    rest.map (fun s => gmw.triple32 s NT none)

/-- The scenario of one mask-triple batch: every party runs `maskTriple`; the
designated party XORs in the correction from one run of the server's
`MaskTripleCorrection`. -/
def gmw.maskRun (s0 : Nat → Nat) (rest : List (Nat → Nat)) (nT nB : Nat) :
    List (List gmw.MaskTriple) :=
  (gmw.maskTriple s0 nT nB (gmw.MaskTripleCorrection (s0 :: rest) nT nB)).getD [] ::
    rest.map (fun s => (gmw.maskTriple s nT nB none).getD [])

/-- The free-XOR invariant of a wire with respect to the session constant
`key0` (the Δ of the spec): `k1 = k0 XOR Δ`. -/
def gen.WireInv (key0 : gc.Key) (w : gc.Wire) : Prop :=
  w.k1 = gc.XorKey w.k0 key0

/-- A concrete cipher on which layering order matters: XOR the plaintext
with the key, then reverse the byte order.  It is deterministic,
length-preserving and invertible (its inverse XORs after reversing), so it
satisfies the spec's contract for `gc.Encrypt`. -/
def gc.Erev : gc.EncFun := fun k p => (List.zipWith Nat.xor k p).reverse

/-- 16-byte key with byte 0 equal to `b` (a concrete `KEY_SIZE`-sized key). -/
def gc.keyB (b : Nat) : gc.Key := b :: List.replicate 15 0

/-! ## Helper lemmas -/

theorem getD_map_range {α : Type} (f : Nat → α) {n i : Nat} (d : α) (h : i < n) :
    ((List.range n).map f).getD i d = f i := by
  simp [List.getD_eq_getElem?_getD, List.getElem?_range h]

theorem getD_lt_of_forall {l : List Nat} (h : ∀ b ∈ l, b < 256) (i : Nat) :
    l.getD i 0 < 256 := by
  by_cases hi : i < l.length
  · rw [List.getD_eq_getElem?_getD, List.getElem?_eq_getElem hi]
    exact h _ (List.getElem_mem hi)
  · rw [List.getD_eq_getElem?_getD, List.getElem?_eq_none (by omega)]
    simp

theorem byte_testBit_false {x : Nat} (hx : x < 256) {m : Nat} (hm : 8 ≤ m) :
    x.testBit m = false := by
  apply Nat.testBit_lt_two_pow
  calc x < 256 := hx
    _ = 2 ^ 8 := by norm_num
    _ ≤ 2 ^ m := Nat.pow_le_pow_right (by norm_num) hm

theorem xor_mod_two (x y : Nat) : (x ^^^ y) % 2 = (x % 2 + y % 2) % 2 := by
  have h := Nat.testBit_xor x y 0
  simp only [Nat.testBit_zero] at h
  rcases Nat.mod_two_eq_zero_or_one x with hx | hx <;>
    rcases Nat.mod_two_eq_zero_or_one y with hy | hy <;>
    rcases Nat.mod_two_eq_zero_or_one (x ^^^ y) with hxy | hxy <;>
    simp [hx, hy, hxy] at h ⊢

theorem or_one_mod_two (x : Nat) : (x ||| 1) % 2 = 1 := by
  have h := Nat.testBit_or x 1 0
  simp only [Nat.testBit_zero] at h
  rcases Nat.mod_two_eq_zero_or_one (x ||| 1) with hx | hx <;> simp [hx] at h ⊢

theorem zipWith_xor_assoc (a b c : List Nat) :
    List.zipWith Nat.xor a (List.zipWith Nat.xor b c) =
      List.zipWith Nat.xor (List.zipWith Nat.xor a b) c := by
  induction a generalizing b c with
  | nil => simp
  | cons x xs ih =>
    cases b with
    | nil => simp
    | cons y ys =>
      cases c with
      | nil => simp
      | cons z zs =>
        simp only [List.zipWith_cons_cons, List.cons.injEq]
        exact ⟨(Nat.xor_assoc x y z).symm, ih ys zs⟩

/-! ## C5 — free XOR performs no IO -/

/-- C5: for equal-length wire vectors, the generator's `Xor` succeeds,
performs no channel IO at all (its effect list is empty), and at every index
returns the wire `(a[i].k0 XOR b[i].k0, a[i].k0 XOR b[i].k1)`. -/
theorem xor_free_no_io (a b : List gc.Wire) (h : a.length = b.length) :
    ∃ out, gen.Xor a b = some (out, []) ∧ out.length = a.length ∧
      ∀ i, i < a.length →
        out.getD i default =
          ⟨gc.XorKey (a.getD i default).k0 (b.getD i default).k0,
           gc.XorKey (a.getD i default).k0 (b.getD i default).k1⟩ := by
  refine ⟨(List.range a.length).map (fun i =>
      ⟨gc.XorKey (a.getD i default).k0 (b.getD i default).k0,
       gc.XorKey (a.getD i default).k0 (b.getD i default).k1⟩), ?_, by simp, ?_⟩
  · simp only [gen.Xor]
    rw [if_pos h]
  · intro i hi
    exact getD_map_range _ _ hi

/-- C5 witness: a concrete two-wire instance. -/
theorem xor_free_no_io_witness :
    ∃ out, gen.Xor [⟨[0], [1]⟩, ⟨[2], [3]⟩] [⟨[4], [5]⟩, ⟨[6], [7]⟩] = some (out, []) ∧
      out.length = 2 ∧
      ∀ i, i < ([⟨[0], [1]⟩, ⟨[2], [3]⟩] : List gc.Wire).length →
        out.getD i default =
          ⟨gc.XorKey ((([⟨[0], [1]⟩, ⟨[2], [3]⟩] : List gc.Wire)).getD i default).k0
             ((([⟨[4], [5]⟩, ⟨[6], [7]⟩] : List gc.Wire)).getD i default).k0,
           gc.XorKey ((([⟨[0], [1]⟩, ⟨[2], [3]⟩] : List gc.Wire)).getD i default).k0
             ((([⟨[4], [5]⟩, ⟨[6], [7]⟩] : List gc.Wire)).getD i default).k1⟩ :=
  xor_free_no_io [⟨[0], [1]⟩, ⟨[2], [3]⟩] [⟨[4], [5]⟩, ⟨[6], [7]⟩] (by decide)

/-! ## C7 — RevealTo0 resolves received keys or fails -/

theorem revealLoop_some_getD (received : Nat → gc.Key) :
    ∀ (ws : List gc.Wire) (start : Nat) (out : List Bool),
      gen.revealLoop received ws start = some out →
      out.length = ws.length ∧
      ∀ i, i < ws.length →
        ∃ v, gen.resolveKey (ws.getD i default) (received (start + i)) = some v ∧
          out.getD i false = (if v = 0 then Bool.false else Bool.true) := by
  intro ws
  induction ws with
  | nil =>
    intro start out h
    simp [gen.revealLoop] at h
    subst h
    exact ⟨rfl, by intro i hi; simp at hi⟩
  | cons w ws ih =>
    intro start out h
    simp only [gen.revealLoop] at h
    rcases hres : gen.resolveKey w (received start) with _ | v <;> rw [hres] at h
    · simp at h
    · rcases hrec : gen.revealLoop received ws (start + 1) with _ | rest <;> rw [hrec] at h
      · simp at h
      · simp only [Option.map_some', Option.some.injEq] at h
        subst h
        obtain ⟨hlen, hall⟩ := ih (start + 1) rest hrec
        refine ⟨by simp [hlen], ?_⟩
        intro i hi
        cases i with
        | zero => exact ⟨v, by simpa using hres, rfl⟩
        | succ j =>
          have hj : j < ws.length := by simpa using hi
          obtain ⟨v', hv', ho⟩ := hall j hj
          refine ⟨v', ?_, ?_⟩
          · have : start + 1 + j = start + (j + 1) := by omega
            rw [← this]
            simpa using hv'
          · simpa using ho

theorem revealLoop_none_of_fail (received : Nat → gc.Key) :
    ∀ (ws : List gc.Wire) (start i : Nat), i < ws.length →
      gen.resolveKey (ws.getD i default) (received (start + i)) = none →
      gen.revealLoop received ws start = none := by
  intro ws
  induction ws with
  | nil => intro start i hi; simp at hi
  | cons w ws ih =>
    intro start i hi hfail
    cases i with
    | zero =>
      simp only [List.getD_cons_zero, Nat.add_zero] at hfail
      simp [gen.revealLoop, hfail]
    | succ j =>
      have hj : j < ws.length := by simpa using hi
      have : start + 1 + j = start + (j + 1) := by omega
      have hnone := ih (start + 1) j hj (by rw [this]; simpa using hfail)
      simp only [gen.revealLoop, hnone]
      rcases gen.resolveKey w (received start) with _ | v <;> simp

/-- C7: `RevealTo0` returns `false` at index `i` when the received key equals
`a[i].k0` and `true` when it equals `a[i].k1` (the wire's labels being
distinct); when the received key equals neither label the whole operation
panics (`none`) instead of returning a value. -/
theorem revealTo0_sound (a : List gc.Wire) (received : Nat → gc.Key) (i : Nat)
    (hi : i < a.length)
    (hne : (a.getD i default).k0 ≠ (a.getD i default).k1) :
    (received i = (a.getD i default).k0 →
      ∀ out, gen.RevealTo0 a received = some out →
        out.length = a.length ∧ out.getD i false = false) ∧
    (received i = (a.getD i default).k1 →
      ∀ out, gen.RevealTo0 a received = some out →
        out.length = a.length ∧ out.getD i false = true) ∧
    (received i ≠ (a.getD i default).k0 → received i ≠ (a.getD i default).k1 →
      gen.RevealTo0 a received = none) := by
  refine ⟨?_, ?_, ?_⟩
  · intro hk out hout
    obtain ⟨hlen, hall⟩ := revealLoop_some_getD received a 0 out hout
    obtain ⟨v, hv, ho⟩ := hall i hi
    rw [Nat.zero_add, hk] at hv
    unfold gen.resolveKey at hv
    rw [if_pos rfl] at hv
    obtain rfl : (0 : Nat) = v := Option.some.inj hv
    exact ⟨hlen, by simpa using ho⟩
  · intro hk out hout
    obtain ⟨hlen, hall⟩ := revealLoop_some_getD received a 0 out hout
    obtain ⟨v, hv, ho⟩ := hall i hi
    rw [Nat.zero_add, hk] at hv
    unfold gen.resolveKey at hv
    rw [if_neg (Ne.symm hne), if_pos rfl] at hv
    obtain rfl : (1 : Nat) = v := Option.some.inj hv
    exact ⟨hlen, by simpa using ho⟩
  · intro h0 h1
    apply revealLoop_none_of_fail received a 0 i hi
    rw [Nat.zero_add]
    unfold gen.resolveKey
    rw [if_neg h0, if_neg h1]

/-- C7 witness: a concrete wire with a matching and a mismatching key. -/
theorem revealTo0_sound_witness :
    ((fun _ => ([2] : gc.Key)) 0 = (([⟨[2], [3]⟩] : List gc.Wire).getD 0 default).k0 →
      ∀ out, gen.RevealTo0 [⟨[2], [3]⟩] (fun _ => [2]) = some out →
        out.length = 1 ∧ out.getD 0 false = false) ∧
    ((fun _ => ([2] : gc.Key)) 0 = (([⟨[2], [3]⟩] : List gc.Wire).getD 0 default).k1 →
      ∀ out, gen.RevealTo0 [⟨[2], [3]⟩] (fun _ => [2]) = some out →
        out.length = 1 ∧ out.getD 0 false = true) ∧
    ((fun _ => ([2] : gc.Key)) 0 ≠ (([⟨[2], [3]⟩] : List gc.Wire).getD 0 default).k0 →
      (fun _ => ([2] : gc.Key)) 0 ≠ (([⟨[2], [3]⟩] : List gc.Wire).getD 0 default).k1 →
      gen.RevealTo0 [⟨[2], [3]⟩] (fun _ => [2]) = none) :=
  revealTo0_sound [⟨[2], [3]⟩] (fun _ => [2]) 0 (by decide) (by decide)

/-! ## C8 — input-shape panics -/

/-- C8 counterexample: zero-width requests do **not** fail fast.
`ShareTo0(0)` returns an empty wire vector with no IO, and `And` on two
empty vectors succeeds with an empty result, contradicting the claim that
every zero-width request panics rather than returning an empty result. -/
theorem zero_width_no_panic_counterexample :
    gen.ShareTo0 (fun _ => [0]) [1] 0 = ([], []) ∧
    gen.And (fun _ p => p) (fun _ => [0]) [1] [] [] = some ([], []) := by
  exact ⟨rfl, rfl⟩

/-- C8 (amended): `And`, `Or` and `Xor` panic exactly on wire-vector length
mismatch, `Random(bits)` panics exactly when `bits < 1`, `ShareTo1(a, bits)`
panics exactly when `bits > 64`; but zero-width requests do not panic:
`ShareTo0(0)` and `And` on empty vectors return empty results. -/
theorem input_shape_panics_amended (E : gc.EncFun) (fresh : Nat → gc.Key)
    (key0 : gc.Key) (a b : List gc.Wire) (random : List Nat) (av bits : Nat) :
    (gen.And E fresh key0 a b = none ↔ a.length ≠ b.length) ∧
    (gen.Or E fresh key0 a b = none ↔ a.length ≠ b.length) ∧
    (gen.Xor a b = none ↔ a.length ≠ b.length) ∧
    (gen.Random fresh key0 random bits = none ↔ bits < 1) ∧
    (gen.ShareTo1 fresh key0 av bits = none ↔ bits > 64) ∧
    gen.ShareTo0 fresh key0 0 = ([], []) ∧
    gen.And E fresh key0 [] [] = some ([], []) := by
  refine ⟨?_, ?_, ?_, ?_, ?_, rfl, rfl⟩
  · by_cases h : a.length = b.length <;> simp [gen.And, h]
  · by_cases h : a.length = b.length <;> simp [gen.Or, h]
  · by_cases h : a.length = b.length <;> simp [gen.Xor, h]
  · by_cases h : bits < 1 <;> simp [gen.Random, h]
  · by_cases h : bits > 64 <;> simp [gen.ShareTo1, h]

/-! ## C9 — layered encrypt/decrypt round-trip -/

/-- C9: if the single-block primitives satisfy
`Decrypt(k, Encrypt(k, p)) = p` on block-sized plaintexts and `Encrypt` is
length-preserving, then the layered helpers satisfy
`decrypt(keys, encrypt(keys, p)) = p` for every finite key list and
block-sized `p`, and `Decrypt` applied to a table slot written by
`encrypt_slot` returns the plaintext. -/
theorem encrypt_decrypt_roundtrip (E D : gc.EncFun)
    (hlen : ∀ k p, (E k p).length = p.length)
    (hround : ∀ k p, p.length = gen.KEY_SIZE → D k (E k p) = p)
    (keys : List gc.Key) (p : List Nat) (hp : p.length = gen.KEY_SIZE) :
    gen.decrypt D keys (gen.encrypt E keys p) = p ∧
    ∀ t : gc.GarbledTable, gen.slot keys < t.length →
      gen.Decrypt D (gen.encrypt_slot E t p keys) keys = p := by
  have main : ∀ (ks : List gc.Key) (q : List Nat), q.length = gen.KEY_SIZE →
      gen.decrypt D ks (gen.encrypt E ks q) = q := by
    intro ks
    induction ks with
    | nil => intro q _; rfl
    | cons k ks ih =>
      intro q hq
      show gen.decrypt D (k :: ks) (gen.encrypt E ks (E k q)) = q
      have : gen.decrypt D (k :: ks) (gen.encrypt E ks (E k q)) =
          D k (gen.decrypt D ks (gen.encrypt E ks (E k q))) := rfl
      rw [this, ih (E k q) (by rw [hlen, hq]), hround k q hq]
  refine ⟨main keys p hp, ?_⟩
  intro t ht
  unfold gen.Decrypt gen.encrypt_slot
  rw [List.getD_eq_getElem?_getD, List.getElem?_set_self (by simpa using ht)]
  exact main keys p hp

/-- C9 witness: identity cipher, two single-byte keys, an all-zero 16-byte
block and a 4-slot table. -/
theorem encrypt_decrypt_roundtrip_witness :
    gen.decrypt (fun _ c => c) [[1], [2]]
        (gen.encrypt (fun _ p => p) [[1], [2]] (List.replicate 16 0)) =
      List.replicate 16 0 ∧
    gen.Decrypt (fun _ c => c)
        (gen.encrypt_slot (fun _ p => p) (List.replicate 4 []) (List.replicate 16 0)
          [[1], [2]]) [[1], [2]] =
      List.replicate 16 0 :=
  ⟨(encrypt_decrypt_roundtrip (fun _ p => p) (fun _ c => c) (fun _ _ => rfl)
      (fun _ _ _ => rfl) [[1], [2]] (List.replicate 16 0) (by simp [gen.KEY_SIZE])).1,
   (encrypt_decrypt_roundtrip (fun _ p => p) (fun _ c => c) (fun _ _ => rfl)
      (fun _ _ _ => rfl) [[1], [2]] (List.replicate 16 0) (by simp [gen.KEY_SIZE])).2
     (List.replicate 4 []) (by decide)⟩

/-! ## C2 — the free-XOR invariant -/

theorem wireInv_genWire (key0 r : gc.Key) : gen.WireInv key0 (gen.genWire key0 r) := rfl

theorem wireInv_of_mem_genWires {key0 : gc.Key} {fresh : Nat → gc.Key} {n : Nat}
    {w : gc.Wire} (h : w ∈ (List.range n).map (fun i => gen.genWire key0 (fresh i))) :
    gen.WireInv key0 w := by
  obtain ⟨i, _, rfl⟩ := List.mem_map.mp h
  exact wireInv_genWire key0 (fresh i)

/-- C2: with `key0 = init_key0(r)` for a nonempty random key `r`:
`lsb(key0) = 1`; every wire returned by `And`, `Or`, `True`, `False`,
`ShareTo0`, `ShareTo1` and `Random` satisfies `k1 = k0 XOR key0`; `Xor`
preserves the invariant (its inputs satisfying it); and every wire
satisfying the invariant whose `k0` is nonempty has
`lsb(k0) ≠ lsb(k1)`. -/
theorem free_xor_invariant (r : gc.Key) (hr : r ≠ []) (key0 : gc.Key)
    (hk : key0 = gen.init_key0 r) (E : gc.EncFun) (fresh : Nat → gc.Key)
    (r0 r1 : gc.Key) (a b : List gc.Wire) (random : List Nat) (av bits : Nat) :
    gen.lsb key0 = 1 ∧
    (∀ out eff, gen.And E fresh key0 a b = some (out, eff) →
      ∀ w ∈ out, gen.WireInv key0 w) ∧
    (∀ out eff, gen.Or E fresh key0 a b = some (out, eff) →
      ∀ w ∈ out, gen.WireInv key0 w) ∧
    ((∀ w ∈ b, gen.WireInv key0 w) →
      ∀ out eff, gen.Xor a b = some (out, eff) → ∀ w ∈ out, gen.WireInv key0 w) ∧
    (∀ w ∈ gen.True key0 r0 r1, gen.WireInv key0 w) ∧
    (∀ w ∈ gen.False key0 r0 r1, gen.WireInv key0 w) ∧
    (∀ w ∈ (gen.ShareTo0 fresh key0 bits).1, gen.WireInv key0 w) ∧
    (∀ out eff, gen.ShareTo1 fresh key0 av bits = some (out, eff) →
      ∀ w ∈ out, gen.WireInv key0 w) ∧
    (∀ out eff, gen.Random fresh key0 random bits = some (out, eff) →
      ∀ w ∈ out, gen.WireInv key0 w) ∧
    (∀ w : gc.Wire, gen.WireInv key0 w → w.k0 ≠ [] →
      gen.lsb w.k0 ≠ gen.lsb w.k1) := by
  obtain ⟨rb, rbs, rfl⟩ : ∃ rb rbs, r = rb :: rbs := by
    cases r with
    | nil => exact absurd rfl hr
    | cons rb rbs => exact ⟨rb, rbs, rfl⟩
  have hk0 : key0 = (rb ||| 1) :: rbs := by rw [hk]; rfl
  have hlsb : gen.lsb key0 = 1 := by
    rw [hk0]
    show (rb ||| 1) % 2 = 1
    exact or_one_mod_two rb
  refine ⟨hlsb, ?_, ?_, ?_, ?_, ?_, ?_, ?_, ?_, ?_⟩
  · intro out eff h w hw
    rw [gen.And] at h
    by_cases hab : a.length = b.length
    · rw [if_pos hab] at h
      obtain ⟨h1, _⟩ := Prod.mk.injEq .. ▸ Option.some.inj h
      exact wireInv_of_mem_genWires (h1 ▸ hw)
    · rw [if_neg hab] at h; exact absurd h (by simp)
  · intro out eff h w hw
    rw [gen.Or] at h
    by_cases hab : a.length = b.length
    · rw [if_pos hab] at h
      obtain ⟨h1, _⟩ := Prod.mk.injEq .. ▸ Option.some.inj h
      exact wireInv_of_mem_genWires (h1 ▸ hw)
    · rw [if_neg hab] at h; exact absurd h (by simp)
  · intro hbinv out eff h w hw
    rw [gen.Xor] at h
    by_cases hab : a.length = b.length
    · rw [if_pos hab] at h
      obtain ⟨h1, _⟩ := Prod.mk.injEq .. ▸ Option.some.inj h
      rw [← h1] at hw
      obtain ⟨i, hi, rfl⟩ := List.mem_map.mp hw
      rw [List.mem_range] at hi
      have hbi : (b.getD i default) ∈ b := by
        rw [List.getD_eq_getElem?_getD,
          List.getElem?_eq_getElem (by omega : i < b.length)]
        exact List.getElem_mem _
      have hb := hbinv _ hbi
      show gc.XorKey (a.getD i default).k0 (b.getD i default).k1 =
        gc.XorKey (gc.XorKey (a.getD i default).k0 (b.getD i default).k0) key0
      rw [hb]
      exact zipWith_xor_assoc _ _ _
    · rw [if_neg hab] at h; exact absurd h (by simp)
  · intro w hw
    rw [gen.True, List.mem_singleton] at hw
    subst hw
    exact wireInv_genWire key0 r1
  · intro w hw
    rw [gen.False, List.mem_singleton] at hw
    subst hw
    exact wireInv_genWire key0 r0
  · intro w hw
    exact wireInv_of_mem_genWires hw
  · intro out eff h w hw
    rw [gen.ShareTo1] at h
    by_cases hb : bits > 64
    · rw [if_pos hb] at h; exact absurd h (by simp)
    · rw [if_neg hb] at h
      obtain ⟨h1, _⟩ := Prod.mk.injEq .. ▸ Option.some.inj h
      exact wireInv_of_mem_genWires (h1 ▸ hw)
  · intro out eff h w hw
    rw [gen.Random] at h
    by_cases hb : bits < 1
    · rw [if_pos hb] at h; exact absurd h (by simp)
    · rw [if_neg hb] at h
      obtain ⟨h1, _⟩ := Prod.mk.injEq .. ▸ Option.some.inj h
      exact wireInv_of_mem_genWires (h1 ▸ hw)
  · intro w hinv hne
    obtain ⟨x, xs, hx⟩ : ∃ x xs, w.k0 = x :: xs := by
      cases hw : w.k0 with
      | nil => exact absurd hw hne
      | cons x xs => exact ⟨x, xs, rfl⟩
    rw [gen.WireInv, hx, hk0] at hinv
    rw [gen.lsb, gen.lsb, hinv, hx]
    show x % 2 ≠ (x ^^^ (rb ||| 1)) % 2
    rw [xor_mod_two, or_one_mod_two]
    omega

/-- C2 witness: the forced selector bit of a concrete session constant. -/
theorem free_xor_invariant_witness : gen.lsb (gen.init_key0 [0]) = 1 :=
  (free_xor_invariant [0] (by decide) (gen.init_key0 [0]) rfl (fun _ p => p)
    (fun _ => [2]) [3] [4] [] [] [] 0 0).1

/-! ## C6 — the RevealTo1 table -/

theorem slot_single (k : gc.Key) : gen.slot [k] = gen.lsb k := by
  simp [gen.slot, gen.lsb]

theorem getD_set_self {α : Type} (l : List α) (i : Nat) (x d : α) (h : i < l.length) :
    (l.set i x).getD i d = x := by
  rw [List.getD_eq_getElem?_getD, List.getElem?_set_self (by simpa using h)]
  rfl

theorem getD_set_ne {α : Type} (l : List α) (i j : Nat) (x d : α) (h : i ≠ j) :
    (l.set i x).getD j d = l.getD j d := by
  rw [List.getD_eq_getElem?_getD, List.getElem?_set_ne h, ← List.getD_eq_getElem?_getD]

theorem lsb_lt_two (k : gc.Key) : gen.lsb k < 2 := Nat.mod_lt _ (by omega)

/-- C6: `RevealTo1` sends, for wire `i`, a 2-slot table built from a fresh
wire whose byte 0 has been overwritten (the wire itself is not returned —
the operation's only output is its effect list); for each logical value
`v`, the slot indexed by `lsb(a[i].k_v)` decrypts under the single key
`a[i].k_v` to a plaintext whose byte 0 is the literal `v`. -/
theorem revealTo1_sound (E D : gc.EncFun) (hround : ∀ k p, D k (E k p) = p)
    (fresh : Nat → gc.Key) (key0 : gc.Key) (a : List gc.Wire) (i : Nat)
    (hi : i < a.length)
    (hlsb : gen.lsb (a.getD i default).k0 ≠ gen.lsb (a.getD i default).k1)
    (hf : fresh i ≠ []) (hk : key0 ≠ []) :
    (gen.RevealTo1 E fresh key0 a).getD i (.sendK []) =
      .sendT (gen.revealTable E key0 (fresh i) (a.getD i default)) ∧
    (gen.revealTable E key0 (fresh i) (a.getD i default)).length = 2 ∧
    ∀ v : Bool,
      (D ((a.getD i default).sel v)
        ((gen.revealTable E key0 (fresh i) (a.getD i default)).getD
          (gen.lsb ((a.getD i default).sel v)) [])).headD 0 = v.toNat := by
  obtain ⟨x, xs, hx⟩ : ∃ x xs, fresh i = x :: xs := by
    cases hc : fresh i with
    | nil => exact absurd hc hf
    | cons x xs => exact ⟨x, xs, rfl⟩
  obtain ⟨y, ys, hy⟩ : ∃ y ys, key0 = y :: ys := by
    cases hc : key0 with
    | nil => exact absurd hc hk
    | cons y ys => exact ⟨y, ys, rfl⟩
  have htab : gen.revealTable E key0 (fresh i) (a.getD i default) =
      ((List.replicate 2 []).set (gen.lsb (a.getD i default).k0)
          (E (a.getD i default).k0 (gen.setByte0 (fresh i) 0))).set
        (gen.lsb (a.getD i default).k1)
        (E (a.getD i default).k1 (gen.setByte0 (gc.XorKey (fresh i) key0) 1)) := by
    simp only [gen.revealTable, gen.revealWire, gen.genWire, gen.encrypt_slot, slot_single]
    rfl
  refine ⟨getD_map_range _ _ hi, by rw [htab]; simp, ?_⟩
  intro v
  cases v
  · show (D (a.getD i default).k0
      ((gen.revealTable E key0 (fresh i) (a.getD i default)).getD
        (gen.lsb (a.getD i default).k0) [])).headD 0 = 0
    rw [htab, getD_set_ne _ _ _ _ _ (Ne.symm hlsb),
      getD_set_self _ _ _ _ (by simpa using lsb_lt_two (a.getD i default).k0)]
    rw [hround, hx]
    rfl
  · show (D (a.getD i default).k1
      ((gen.revealTable E key0 (fresh i) (a.getD i default)).getD
        (gen.lsb (a.getD i default).k1) [])).headD 0 = 1
    rw [htab, getD_set_self _ _ _ _ (by simpa using lsb_lt_two (a.getD i default).k1)]
    rw [hround, hx, hy]
    rfl

/-- C6 witness: a concrete wire with single-byte keys of distinct selector
bits, under the identity cipher. -/
theorem revealTo1_sound_witness :
    (gen.RevealTo1 (fun _ p => p) (fun _ => [7]) [1] [⟨[2], [3]⟩]).getD 0 (.sendK []) =
      .sendT (gen.revealTable (fun _ p => p) [1] [7] (([⟨[2], [3]⟩] : List gc.Wire).getD 0 default)) ∧
    (gen.revealTable (fun _ p => p) [1] [7] (([⟨[2], [3]⟩] : List gc.Wire).getD 0 default)).length = 2 ∧
    ∀ v : Bool,
      ((fun (_ : gc.Key) (p : List Nat) => p) ((([⟨[2], [3]⟩] : List gc.Wire).getD 0 default).sel v)
        ((gen.revealTable (fun _ p => p) [1] [7] (([⟨[2], [3]⟩] : List gc.Wire).getD 0 default)).getD
          (gen.lsb ((([⟨[2], [3]⟩] : List gc.Wire).getD 0 default).sel v)) [])).headD 0 = v.toNat :=
  revealTo1_sound (fun _ p => p) (fun _ p => p) (fun _ _ => rfl) (fun _ => [7]) [1]
    [⟨[2], [3]⟩] 0 (by decide) (by decide) (by decide) (by decide)

/-! ## C1 — the And/Or garbled tables -/

theorem slot_pair (k k' : gc.Key) : gen.slot [k, k'] = 2 * gen.lsb k + gen.lsb k' := by
  simp [gen.slot, gen.lsb]

theorem sel_false (w : gc.Wire) : w.sel false = w.k0 := rfl

theorem sel_true (w : gc.Wire) : w.sel true = w.k1 := rfl

theorem andTable_getD (E : gc.EncFun) (w ai bi : gc.Wire)
    (ha : gen.lsb ai.k0 ≠ gen.lsb ai.k1) (hb : gen.lsb bi.k0 ≠ gen.lsb bi.k1)
    (x y : Bool) :
    (gen.andTable E w ai bi).getD (2 * gen.lsb (ai.sel x) + gen.lsb (bi.sel y)) []
      = E (bi.sel y) (E (ai.sel x) (w.sel (x && y))) := by
  have ha0 := lsb_lt_two ai.k0
  have ha1 := lsb_lt_two ai.k1
  have hb0 := lsb_lt_two bi.k0
  have hb1 := lsb_lt_two bi.k1
  have htab : gen.andTable E w ai bi =
      ((((List.replicate 4 []).set (2 * gen.lsb ai.k0 + gen.lsb bi.k0)
              (E bi.k0 (E ai.k0 w.k0))).set
            (2 * gen.lsb ai.k0 + gen.lsb bi.k1) (E bi.k1 (E ai.k0 w.k0))).set
          (2 * gen.lsb ai.k1 + gen.lsb bi.k0) (E bi.k0 (E ai.k1 w.k0))).set
        (2 * gen.lsb ai.k1 + gen.lsb bi.k1) (E bi.k1 (E ai.k1 w.k1)) := by
    simp only [gen.andTable, gen.encrypt_slot, slot_pair]
    rfl
  rw [htab]
  cases x <;> cases y
  · show (_ : gc.GarbledTable).getD (2 * gen.lsb ai.k0 + gen.lsb bi.k0) [] =
      E bi.k0 (E ai.k0 w.k0)
    rw [getD_set_ne _ _ _ _ _ (by omega), getD_set_ne _ _ _ _ _ (by omega),
      getD_set_ne _ _ _ _ _ (by omega), getD_set_self _ _ _ _ (by simp; omega)]
  · show (_ : gc.GarbledTable).getD (2 * gen.lsb ai.k0 + gen.lsb bi.k1) [] =
      E bi.k1 (E ai.k0 w.k0)
    rw [getD_set_ne _ _ _ _ _ (by omega), getD_set_ne _ _ _ _ _ (by omega),
      getD_set_self _ _ _ _ (by simp; omega)]
  · show (_ : gc.GarbledTable).getD (2 * gen.lsb ai.k1 + gen.lsb bi.k0) [] =
      E bi.k0 (E ai.k1 w.k0)
    rw [getD_set_ne _ _ _ _ _ (by omega), getD_set_self _ _ _ _ (by simp; omega)]
  · show (_ : gc.GarbledTable).getD (2 * gen.lsb ai.k1 + gen.lsb bi.k1) [] =
      E bi.k1 (E ai.k1 w.k1)
    rw [getD_set_self _ _ _ _ (by simp; omega)]

theorem orTable_getD (E : gc.EncFun) (w ai bi : gc.Wire)
    (ha : gen.lsb ai.k0 ≠ gen.lsb ai.k1) (hb : gen.lsb bi.k0 ≠ gen.lsb bi.k1)
    (x y : Bool) :
    (gen.orTable E w ai bi).getD (2 * gen.lsb (ai.sel x) + gen.lsb (bi.sel y)) []
      = E (bi.sel y) (E (ai.sel x) (w.sel (x || y))) := by
  have ha0 := lsb_lt_two ai.k0
  have ha1 := lsb_lt_two ai.k1
  have hb0 := lsb_lt_two bi.k0
  have hb1 := lsb_lt_two bi.k1
  have htab : gen.orTable E w ai bi =
      ((((List.replicate 4 []).set (2 * gen.lsb ai.k0 + gen.lsb bi.k0)
              (E bi.k0 (E ai.k0 w.k0))).set
            (2 * gen.lsb ai.k0 + gen.lsb bi.k1) (E bi.k1 (E ai.k0 w.k1))).set
          (2 * gen.lsb ai.k1 + gen.lsb bi.k0) (E bi.k0 (E ai.k1 w.k1))).set
        (2 * gen.lsb ai.k1 + gen.lsb bi.k1) (E bi.k1 (E ai.k1 w.k1)) := by
    simp only [gen.orTable, gen.encrypt_slot, slot_pair]
    rfl
  rw [htab]
  cases x <;> cases y
  · show (_ : gc.GarbledTable).getD (2 * gen.lsb ai.k0 + gen.lsb bi.k0) [] =
      E bi.k0 (E ai.k0 w.k0)
    rw [getD_set_ne _ _ _ _ _ (by omega), getD_set_ne _ _ _ _ _ (by omega),
      getD_set_ne _ _ _ _ _ (by omega), getD_set_self _ _ _ _ (by simp; omega)]
  · show (_ : gc.GarbledTable).getD (2 * gen.lsb ai.k0 + gen.lsb bi.k1) [] =
      E bi.k1 (E ai.k0 w.k1)
    rw [getD_set_ne _ _ _ _ _ (by omega), getD_set_ne _ _ _ _ _ (by omega),
      getD_set_self _ _ _ _ (by simp; omega)]
  · show (_ : gc.GarbledTable).getD (2 * gen.lsb ai.k1 + gen.lsb bi.k0) [] =
      E bi.k0 (E ai.k1 w.k1)
    rw [getD_set_ne _ _ _ _ _ (by omega), getD_set_self _ _ _ _ (by simp; omega)]
  · show (_ : gc.GarbledTable).getD (2 * gen.lsb ai.k1 + gen.lsb bi.k1) [] =
      E bi.k1 (E ai.k1 w.k1)
    rw [getD_set_self _ _ _ _ (by simp; omega)]

/-- C1 counterexample: with the order-sensitive (but deterministic,
length-preserving, invertible) cipher `Erev`, 16-byte keys and the free-XOR
precondition satisfied, the generator's `And` sends a table whose (1,1) slot
is `Encrypt(b.k1, Encrypt(a.k1, w.k1))` — not `Encrypt(a.k1, Encrypt(b.k1,
w.k1))` as the claim states: the two layered encryptions are applied in the
opposite nesting order. -/
theorem and_table_claim_counterexample :
    gen.And gc.Erev (fun _ => gc.keyB 4) (gc.keyB 1)
        [⟨gc.keyB 0, gc.keyB 1⟩] [⟨gc.keyB 2, gc.keyB 3⟩] =
      some ([⟨gc.keyB 4, gc.keyB 5⟩],
        [.sendT (gen.andTable gc.Erev ⟨gc.keyB 4, gc.keyB 5⟩
          ⟨gc.keyB 0, gc.keyB 1⟩ ⟨gc.keyB 2, gc.keyB 3⟩)]) ∧
    gen.lsb (gc.keyB 0) ≠ gen.lsb (gc.keyB 1) ∧
    gen.lsb (gc.keyB 2) ≠ gen.lsb (gc.keyB 3) ∧
    ¬ ((gen.andTable gc.Erev ⟨gc.keyB 4, gc.keyB 5⟩
          ⟨gc.keyB 0, gc.keyB 1⟩ ⟨gc.keyB 2, gc.keyB 3⟩).getD
        (2 * gen.lsb (gc.keyB 1) + gen.lsb (gc.keyB 3)) []
      = gc.Erev (gc.keyB 1) (gc.Erev (gc.keyB 3) (gc.keyB 5))) := by
  refine ⟨by decide, by decide, by decide, by decide⟩

/-- C1 (amended): for equal-length vectors, at each index `i` the
generator's `And` (resp. `Or`) returns the fresh wire `genWire(fresh i)` and
sends the 4-slot table whose slot indexed by `lsb(a[i][x]) || lsb(b[i][y])`
equals `Encrypt(b[i][y], Encrypt(a[i][x], w[x AND y]))` (resp. `w[x OR y]`)
— the keys are layered innermost-first in slice order `a` then `b`; under
the free-XOR precondition on both input wires, the four label pairs index
four pairwise distinct slots. -/
theorem and_or_table_amended (E : gc.EncFun) (fresh : Nat → gc.Key)
    (key0 : gc.Key) (a b : List gc.Wire) (hlen : a.length = b.length)
    (i : Nat) (hi : i < a.length)
    (ha : gen.lsb (a.getD i default).k0 ≠ gen.lsb (a.getD i default).k1)
    (hb : gen.lsb (b.getD i default).k0 ≠ gen.lsb (b.getD i default).k1) :
    (∃ out eff, gen.And E fresh key0 a b = some (out, eff) ∧
      out.getD i default = gen.genWire key0 (fresh i) ∧
      eff.getD i (.sendK []) = .sendT (gen.andTable E (gen.genWire key0 (fresh i))
        (a.getD i default) (b.getD i default))) ∧
    (∃ out eff, gen.Or E fresh key0 a b = some (out, eff) ∧
      out.getD i default = gen.genWire key0 (fresh i) ∧
      eff.getD i (.sendK []) = .sendT (gen.orTable E (gen.genWire key0 (fresh i))
        (a.getD i default) (b.getD i default))) ∧
    (∀ x y : Bool,
      (gen.andTable E (gen.genWire key0 (fresh i))
          (a.getD i default) (b.getD i default)).getD
        (2 * gen.lsb ((a.getD i default).sel x) + gen.lsb ((b.getD i default).sel y)) []
      = E ((b.getD i default).sel y)
          (E ((a.getD i default).sel x) ((gen.genWire key0 (fresh i)).sel (x && y)))) ∧
    (∀ x y : Bool,
      (gen.orTable E (gen.genWire key0 (fresh i))
          (a.getD i default) (b.getD i default)).getD
        (2 * gen.lsb ((a.getD i default).sel x) + gen.lsb ((b.getD i default).sel y)) []
      = E ((b.getD i default).sel y)
          (E ((a.getD i default).sel x) ((gen.genWire key0 (fresh i)).sel (x || y)))) ∧
    (∀ x y x' y' : Bool,
      2 * gen.lsb ((a.getD i default).sel x) + gen.lsb ((b.getD i default).sel y) =
        2 * gen.lsb ((a.getD i default).sel x') + gen.lsb ((b.getD i default).sel y') →
      x = x' ∧ y = y') := by
  refine ⟨?_, ?_, andTable_getD E _ _ _ ha hb, orTable_getD E _ _ _ ha hb, ?_⟩
  · refine ⟨(List.range a.length).map (fun j => gen.genWire key0 (fresh j)),
      (List.range a.length).map (fun j =>
        .sendT (gen.andTable E (gen.genWire key0 (fresh j))
          (a.getD j default) (b.getD j default))),
      ?_, getD_map_range _ _ hi, getD_map_range _ _ hi⟩
    rw [gen.And, if_pos hlen]
  · refine ⟨(List.range a.length).map (fun j => gen.genWire key0 (fresh j)),
      (List.range a.length).map (fun j =>
        .sendT (gen.orTable E (gen.genWire key0 (fresh j))
          (a.getD j default) (b.getD j default))),
      ?_, getD_map_range _ _ hi, getD_map_range _ _ hi⟩
    rw [gen.Or, if_pos hlen]
  · have ha0 := lsb_lt_two (a.getD i default).k0
    have ha1 := lsb_lt_two (a.getD i default).k1
    have hb0 := lsb_lt_two (b.getD i default).k0
    have hb1 := lsb_lt_two (b.getD i default).k1
    intro x y x' y' h
    cases x <;> cases x' <;> cases y <;> cases y' <;>
      simp only [sel_false, sel_true] at h <;>
      first
      | exact ⟨rfl, rfl⟩
      | exact absurd h (by omega)

/-- C1 witness: the (1,0) slot of a concrete And table under `Erev`. -/
theorem and_or_table_amended_witness :
    (gen.andTable gc.Erev (gen.genWire (gc.keyB 1) (gc.keyB 4))
        (([⟨gc.keyB 0, gc.keyB 1⟩] : List gc.Wire).getD 0 default)
        (([⟨gc.keyB 2, gc.keyB 3⟩] : List gc.Wire).getD 0 default)).getD
      (2 * gen.lsb ((([⟨gc.keyB 0, gc.keyB 1⟩] : List gc.Wire).getD 0 default).sel true) +
        gen.lsb ((([⟨gc.keyB 2, gc.keyB 3⟩] : List gc.Wire).getD 0 default).sel false)) []
    = gc.Erev ((([⟨gc.keyB 2, gc.keyB 3⟩] : List gc.Wire).getD 0 default).sel false)
        (gc.Erev ((([⟨gc.keyB 0, gc.keyB 1⟩] : List gc.Wire).getD 0 default).sel true)
          ((gen.genWire (gc.keyB 1) (gc.keyB 4)).sel (true && false))) :=
  (and_or_table_amended gc.Erev (fun _ => gc.keyB 4) (gc.keyB 1)
    [⟨gc.keyB 0, gc.keyB 1⟩] [⟨gc.keyB 2, gc.keyB 3⟩] rfl 0 (by decide)
    (by decide) (by decide)).2.2.1 true false

/-! ## Shared lemmas for the commodity batches -/

theorem getBit_isSome (l : List Nat) (i : Nat) :
    (bit.GetBit l i).isSome ↔ i / 8 < l.length := by
  rw [bit.GetBit]
  by_cases h : i / 8 < l.length
  · rw [List.getElem?_eq_getElem h]
    simp [h]
  · rw [List.getElem?_eq_none (by omega)]
    simp [h]

theorem getBit_in_range (l : List Nat) (i : Nat) (h : i / 8 < l.length) :
    bit.GetBit l i = some ((l.getD (i / 8) 0 >>> (i % 8)) &&& 1) := by
  rw [bit.GetBit, List.getElem?_eq_getElem h]
  rw [List.getD_eq_getElem?_getD, List.getElem?_eq_getElem h]
  rfl

theorem buildMT_isSome (a b c : List Nat) (nB : Nat) :
    ∀ n i, (gmw.buildMT a b c nB i n).isSome ↔ ∀ j, j < n → (i + j) / 8 < a.length := by
  intro n
  induction n with
  | zero => intro i; simp [gmw.buildMT]
  | succ m ih =>
    intro i
    rw [gmw.buildMT]
    rcases hg : bit.GetBit a i with _ | v
    · have hout : ¬ i / 8 < a.length := by
        rw [← getBit_isSome, hg]
        simp
      show (Option.isSome (none : Option (List gmw.MaskTriple)) = true) ↔ _
      simp only [Option.isSome_none, Bool.false_eq_true, false_iff]
      intro hall
      exact hout (by simpa using hall 0 (by omega))
    · have hgi : i / 8 < a.length := by
        rw [← getBit_isSome, hg]
        simp
      show ((gmw.buildMT a b c nB (i + 1) m).map
        (fun rest => ⟨v, gmw.chunk b nB i, gmw.chunk c nB i⟩ :: rest)).isSome = true ↔ _
      rw [Option.isSome_map']
      rw [ih (i + 1)]
      constructor
      · intro hall j hj
        cases j with
        | zero => simpa using hgi
        | succ j' =>
          have := hall j' (by omega)
          omega
      · intro hall j hj
        have := hall (j + 1) (by omega)
        omega

theorem buildCorr_isSome (A b c : List Nat) (nB : Nat) :
    ∀ n i, (gmw.buildCorr A b c nB i n).isSome ↔ ∀ j, j < n → (i + j) / 8 < A.length := by
  intro n
  induction n with
  | zero => intro i; simp [gmw.buildCorr]
  | succ m ih =>
    intro i
    rw [gmw.buildCorr]
    rcases hg : bit.GetBit A i with _ | v
    · have hout : ¬ i / 8 < A.length := by
        rw [← getBit_isSome, hg]
        simp
      show (Option.isSome (none : Option (List Nat)) = true) ↔ _
      simp only [Option.isSome_none, Bool.false_eq_true, false_iff]
      intro hall
      exact hout (by simpa using hall 0 (by omega))
    · have hgi : i / 8 < A.length := by
        rw [← getBit_isSome, hg]
        simp
      show ((gmw.buildCorr A b c nB (i + 1) m).map
        (fun rest =>
          (if v = 1 then ot.XorBytes (gmw.chunk b nB i) (gmw.chunk c nB i)
           else gmw.chunk c nB i) ++ rest)).isSome = true ↔ _
      rw [Option.isSome_map']
      rw [ih (i + 1)]
      constructor
      · intro hall j hj
        cases j with
        | zero => simpa using hgi
        | succ j' =>
          have := hall j' (by omega)
          omega
      · intro hall j hj
        have := hall (j + 1) (by omega)
        omega

theorem in_range_iff_mod_eight (nT : Nat) :
    (∀ j, j < nT → (0 + j) / 8 < nT / 8) ↔ nT % 8 = 0 := by
  constructor
  · intro h
    by_contra hne
    have h8 : 8 * (nT / 8) < nT := by omega
    have := h (8 * (nT / 8)) h8
    omega
  · intro h j hj
    omega

theorem bytesOf_length (s : Nat → Nat) (off n : Nat) :
    (gmw.bytesOf s off n).length = n := by
  simp [gmw.bytesOf]

theorem xorBytes_length (a b : List Nat) :
    (ot.XorBytes a b).length = min a.length b.length := by
  simp [ot.XorBytes]

theorem serverAgg_length (streams : List (Nat → Nat)) (off n : Nat) :
    (gmw.serverAgg streams off n).length = n := by
  rw [gmw.serverAgg]
  suffices h : ∀ acc : List Nat, acc.length = n →
      (streams.foldl (fun acc s => ot.XorBytes acc (gmw.bytesOf s off n)) acc).length = n by
    exact h _ (by simp)
  induction streams with
  | nil => intro acc hacc; simpa using hacc
  | cons s ss ih =>
    intro acc hacc
    simp only [List.foldl_cons]
    exact ih _ (by simp [xorBytes_length, hacc, bytesOf_length])

/-! ## C10 — totality of the mask-triple batch -/

/-- C10 counterexample: at `numTriples = 0` both `maskTriple` and
`MaskTripleCorrection` are total (they return an empty batch and an empty
correction), yet `0` is not a *positive* multiple of 8 — so totality does
not require positivity, only divisibility by 8. -/
theorem mask_triple_zero_counterexample :
    (gmw.maskTriple (fun _ => 0) 0 4 none).isSome = true ∧
    (gmw.MaskTripleCorrection [fun _ => 0] 0 4).isSome = true ∧
    ¬ 0 < (0 : Nat) :=
  ⟨rfl, rfl, by omega⟩

/-- C10 (amended): `maskTriple(numTriples, numBytesTriple)` (with any
correction) and `MaskTripleCorrection(numTriples, numBytesTriple)` are total
exactly when `numTriples` is a multiple of 8 (including 0): both allocate
`numTriples/8` bytes of `a`-bits but read bits `0 … numTriples-1`, so for
every `numTriples` not divisible by 8 the bit lookup indexes past the end of
the buffer and the operation panics. -/
theorem mask_triple_totality_amended (s : Nat → Nat) (streams : List (Nat → Nat))
    (nT nB : Nat) (corr : Option (List Nat)) :
    ((gmw.maskTriple s nT nB corr).isSome ↔ nT % 8 = 0) ∧
    ((gmw.MaskTripleCorrection streams nT nB).isSome ↔ nT % 8 = 0) := by
  constructor
  · simp only [gmw.maskTriple]
    rw [buildMT_isSome, bytesOf_length, in_range_iff_mod_eight]
  · simp only [gmw.MaskTripleCorrection]
    rw [buildCorr_isSome, serverAgg_length, in_range_iff_mod_eight]

/-! ## Byte- and bit-level lemmas for the triple batches -/

theorem bytesOf_getD (s : Nat → Nat) (off n k : Nat) (hk : k < n) :
    (gmw.bytesOf s off n).getD k 0 = s (off + k) := by
  rw [gmw.bytesOf]
  exact getD_map_range _ _ hk

theorem getD_zipWith_fun (f : Nat → Nat → Nat) (a b : List Nat) (k : Nat)
    (ha : k < a.length) (hb : k < b.length) :
    (List.zipWith f a b).getD k 0 = f (a.getD k 0) (b.getD k 0) := by
  rw [List.getD_eq_getElem?_getD, List.getElem?_zipWith, List.getElem?_eq_getElem ha,
    List.getElem?_eq_getElem hb]
  rw [List.getD_eq_getElem?_getD, List.getElem?_eq_getElem ha,
    List.getD_eq_getElem?_getD, List.getElem?_eq_getElem hb]
  rfl

theorem xorFold_cons (x : Nat) (l : List Nat) :
    gmw.xorFold (x :: l) = x ^^^ gmw.xorFold l := rfl

theorem bXorFold_cons (b : Bool) (l : List Bool) :
    gmw.bXorFold (b :: l) = (b ^^ gmw.bXorFold l) := rfl

theorem serverAgg_getD (streams : List (Nat → Nat)) (off n k : Nat) (hk : k < n) :
    (gmw.serverAgg streams off n).getD k 0 =
      gmw.xorFold (streams.map (fun s => s (off + k))) := by
  rw [gmw.serverAgg]
  suffices h : ∀ acc : List Nat, acc.length = n →
      (streams.foldl (fun acc s => ot.XorBytes acc (gmw.bytesOf s off n)) acc).getD k 0
        = acc.getD k 0 ^^^ gmw.xorFold (streams.map (fun s => s (off + k))) by
    rw [h _ (by simp)]
    rw [List.getD_eq_getElem?_getD, List.getElem?_replicate_of_lt hk]
    simp
  induction streams with
  | nil =>
    intro acc hacc
    simp [gmw.xorFold]
  | cons s ss ih =>
    intro acc hacc
    simp only [List.foldl_cons, List.map_cons]
    rw [ih _ (by simp [xorBytes_length, hacc, bytesOf_length])]
    simp only [ot.XorBytes]
    rw [getD_zipWith_fun Nat.xor acc _ k (by omega)
      (by rw [bytesOf_length]; omega)]
    rw [bytesOf_getD _ _ _ _ hk, xorFold_cons]
    exact Nat.xor_assoc _ _ _

theorem xorFold_testBit (l : List Nat) (j : Nat) :
    (gmw.xorFold l).testBit j = gmw.bXorFold (l.map (fun x => x.testBit j)) := by
  induction l with
  | nil => simp [gmw.xorFold, gmw.bXorFold]
  | cons x xs ih =>
    rw [List.map_cons, xorFold_cons, bXorFold_cons, Nat.testBit_xor, ih]

theorem xorFold_lt_two_pow {l : List Nat} {n : Nat} (h : ∀ x ∈ l, x < 2 ^ n) :
    gmw.xorFold l < 2 ^ n := by
  induction l with
  | nil => simp [gmw.xorFold]
  | cons x xs ih =>
    rw [xorFold_cons]
    exact Nat.xor_lt_two_pow (h x (by simp)) (ih (fun y hy => h y (by simp [hy])))

theorem combine_explicit (e0 e1 e2 e3 : Nat) :
    gmw.combine [e0, e1, e2, e3] = e0 ||| e1 <<< 8 ||| e2 <<< 16 ||| e3 <<< 24 := rfl

theorem xor_lt_256 {x y : Nat} (hx : x < 256) (hy : y < 256) : x ^^^ y < 256 := by
  have h := Nat.xor_lt_two_pow (n := 8) (by simpa using hx) (by simpa using hy)
  simpa using h

theorem land_lt_256 {x : Nat} (y : Nat) (hx : x < 256) : x &&& y < 256 :=
  lt_of_le_of_lt Nat.and_le_left hx

theorem xorFold_lt_256 {l : List Nat} (h : ∀ x ∈ l, x < 256) : gmw.xorFold l < 256 := by
  have hf := xorFold_lt_two_pow (n := 8) (l := l) (by intro x hx; simpa using h x hx)
  simpa using hf

theorem getD_zipWith_xor_lt {a b : List Nat} (ha : ∀ k, a.getD k 0 < 256)
    (hb : ∀ k, b.getD k 0 < 256) (k : Nat) :
    (List.zipWith Nat.xor a b).getD k 0 < 256 := by
  by_cases hk : k < (List.zipWith Nat.xor a b).length
  · rw [List.length_zipWith] at hk
    rw [getD_zipWith_fun Nat.xor a b k (by omega) (by omega)]
    exact xor_lt_256 (ha k) (hb k)
  · rw [List.getD_eq_getElem?_getD, List.getElem?_eq_none (by omega)]
    simp

theorem getD_zipWith_land_lt {a : List Nat} (b : List Nat)
    (ha : ∀ k, a.getD k 0 < 256) (k : Nat) :
    (List.zipWith Nat.land a b).getD k 0 < 256 := by
  by_cases hk : k < (List.zipWith Nat.land a b).length
  · rw [List.length_zipWith] at hk
    rw [getD_zipWith_fun Nat.land a b k (by omega) (by omega)]
    exact land_lt_256 _ (ha k)
  · rw [List.getD_eq_getElem?_getD, List.getElem?_eq_none (by omega)]
    simp

theorem bytesOf_getD_lt (s : Nat → Nat) (hs : ∀ p, s p < 256) (off n k : Nat) :
    (gmw.bytesOf s off n).getD k 0 < 256 := by
  by_cases hk : k < n
  · rw [bytesOf_getD s off n k hk]
    exact hs _
  · rw [List.getD_eq_getElem?_getD, List.getElem?_eq_none (by rw [bytesOf_length]; omega)]
    simp

theorem serverAgg_getD_lt (streams : List (Nat → Nat))
    (hb : ∀ s ∈ streams, ∀ p, s p < 256) (off n k : Nat) :
    (gmw.serverAgg streams off n).getD k 0 < 256 := by
  by_cases hk : k < n
  · rw [serverAgg_getD streams off n k hk]
    apply xorFold_lt_256
    intro x hx
    obtain ⟨s, hs, rfl⟩ := List.mem_map.mp hx
    exact hb s hs _
  · rw [List.getD_eq_getElem?_getD,
      List.getElem?_eq_none (by rw [serverAgg_length]; omega)]
    simp

theorem combine4_testBit {e0 e1 e2 e3 : Nat} (h0 : e0 < 256) (h1 : e1 < 256)
    (h2 : e2 < 256) (h3 : e3 < 256) (j : Nat) (hj : j < 32) :
    (e0 ||| e1 <<< 8 ||| e2 <<< 16 ||| e3 <<< 24).testBit j =
      ([e0, e1, e2, e3].getD (j / 8) 0).testBit (j % 8) := by
  interval_cases j <;>
    simp [byte_testBit_false h0, byte_testBit_false h1, byte_testBit_false h2,
      byte_testBit_false h3]

theorem combine_byte4_testBit (l : List Nat) (hl : ∀ k, l.getD k 0 < 256)
    (t j : Nat) (hj : j < 32) :
    (gmw.combine (gmw.byte4 l t)).testBit j =
      (l.getD (4 * t + j / 8) 0).testBit (j % 8) := by
  rw [show gmw.byte4 l t =
    [l.getD (4 * t) 0, l.getD (4 * t + 1) 0, l.getD (4 * t + 2) 0,
      l.getD (4 * t + 3) 0] from rfl]
  rw [combine_explicit]
  rw [combine4_testBit (hl (4 * t)) (hl (4 * t + 1)) (hl (4 * t + 2))
    (hl (4 * t + 3)) j hj]
  congr 1
  have hq : j / 8 = 0 ∨ j / 8 = 1 ∨ j / 8 = 2 ∨ j / 8 = 3 := by omega
  rcases hq with h | h | h | h <;> rw [h] <;> simp

theorem bool_xor_cancel (p q r : Bool) : ((p ^^ (q ^^ (p ^^ r))) ^^ r) = q := by
  revert p q r
  decide

/-! ## C3 — the multiplication-triple correction -/

/-- C3: with any number of parties (the designated one first) holding PRG
streams known to the commodity server, after one batch: for every triple
index `t` and every bit position `j` of the 32-bit words, the XOR over all
parties of the `c` shares equals the AND of the XOR of the `a` shares with
the XOR of the `b` shares. -/
theorem triple_correction_sound (s0 : Nat → Nat) (rest : List (Nat → Nat))
    (hb : ∀ s ∈ s0 :: rest, ∀ p, s p < 256) (NT t j : Nat) (ht : t < NT)
    (hj : j < 32) :
    (gmw.xorFold ((gmw.tripleRun s0 rest NT).map
        (fun r => (r.getD t default).c))).testBit j
      = (((gmw.xorFold ((gmw.tripleRun s0 rest NT).map
            (fun r => (r.getD t default).a))).testBit j)
        && ((gmw.xorFold ((gmw.tripleRun s0 rest NT).map
            (fun r => (r.getD t default).b))).testBit j)) := by
  have hm : 4 * t + j / 8 < NT * 4 := by omega
  -- characterize the t-th triple of one client run
  have tripGet : ∀ (s : Nat → Nat) (co : Option (List Nat)),
      (gmw.triple32 s NT co).getD t default =
        ⟨gmw.combine (gmw.byte4 (gmw.bytesOf s 0 (NT * 4)) t),
         gmw.combine (gmw.byte4 (gmw.bytesOf s (NT * 4) (NT * 4)) t),
         gmw.combine (gmw.byte4 (match co with
           | none => gmw.bytesOf s (2 * (NT * 4)) (NT * 4)
           | some corr =>
               ot.XorBytes (gmw.bytesOf s (2 * (NT * 4)) (NT * 4)) corr) t)⟩ := by
    intro s co
    simp only [gmw.triple32]
    exact getD_map_range _ _ ht
  -- the three share lists
  have hmapa : (gmw.tripleRun s0 rest NT).map (fun r => (r.getD t default).a) =
      (s0 :: rest).map
        (fun s => gmw.combine (gmw.byte4 (gmw.bytesOf s 0 (NT * 4)) t)) := by
    simp only [gmw.tripleRun, List.map_cons, List.map_map]
    congr 1
    · rw [tripGet s0 (some (gmw.TripleCorrection (s0 :: rest) NT))]
    · apply List.map_congr_left
      intro s _
      simp only [Function.comp_apply]
      rw [tripGet s none]
  have hmapb : (gmw.tripleRun s0 rest NT).map (fun r => (r.getD t default).b) =
      (s0 :: rest).map
        (fun s => gmw.combine (gmw.byte4 (gmw.bytesOf s (NT * 4) (NT * 4)) t)) := by
    simp only [gmw.tripleRun, List.map_cons, List.map_map]
    congr 1
    · rw [tripGet s0 (some (gmw.TripleCorrection (s0 :: rest) NT))]
    · apply List.map_congr_left
      intro s _
      simp only [Function.comp_apply]
      rw [tripGet s none]
  have hmapc : (gmw.tripleRun s0 rest NT).map (fun r => (r.getD t default).c) =
      gmw.combine (gmw.byte4 (ot.XorBytes (gmw.bytesOf s0 (2 * (NT * 4)) (NT * 4))
          (gmw.TripleCorrection (s0 :: rest) NT)) t) ::
        rest.map (fun s =>
          gmw.combine (gmw.byte4 (gmw.bytesOf s (2 * (NT * 4)) (NT * 4)) t)) := by
    simp only [gmw.tripleRun, List.map_cons, List.map_map]
    congr 1
    · rw [tripGet s0 (some (gmw.TripleCorrection (s0 :: rest) NT))]
    · apply List.map_congr_left
      intro s _
      simp only [Function.comp_apply]
      rw [tripGet s none]
  -- aggregate bits of the raw a/b shares are the server's aggregate bits
  have hA : (gmw.xorFold ((s0 :: rest).map
        (fun s => gmw.combine (gmw.byte4 (gmw.bytesOf s 0 (NT * 4)) t)))).testBit j
      = ((gmw.serverAgg (s0 :: rest) 0 (NT * 4)).getD (4 * t + j / 8) 0).testBit
          (j % 8) := by
    rw [xorFold_testBit, List.map_map, serverAgg_getD _ _ _ _ hm,
      xorFold_testBit, List.map_map]
    apply congrArg gmw.bXorFold
    apply List.map_congr_left
    intro s hs
    simp only [Function.comp_apply]
    rw [combine_byte4_testBit _ (fun k => bytesOf_getD_lt s (hb s hs) _ _ k) t j hj]
    rw [bytesOf_getD _ _ _ _ hm]
  have hB : (gmw.xorFold ((s0 :: rest).map
        (fun s => gmw.combine (gmw.byte4 (gmw.bytesOf s (NT * 4) (NT * 4)) t)))).testBit j
      = ((gmw.serverAgg (s0 :: rest) (NT * 4) (NT * 4)).getD (4 * t + j / 8) 0).testBit
          (j % 8) := by
    rw [xorFold_testBit, List.map_map, serverAgg_getD _ _ _ _ hm,
      xorFold_testBit, List.map_map]
    apply congrArg gmw.bXorFold
    apply List.map_congr_left
    intro s hs
    simp only [Function.comp_apply]
    rw [combine_byte4_testBit _ (fun k => bytesOf_getD_lt s (hb s hs) _ _ k) t j hj]
    rw [bytesOf_getD _ _ _ _ hm]
  -- the aggregate bit of the raw c shares (all parties, uncorrected)
  have hCagg : ((gmw.serverAgg (s0 :: rest) (2 * (NT * 4)) (NT * 4)).getD
        (4 * t + j / 8) 0).testBit (j % 8)
      = (((s0 (2 * (NT * 4) + (4 * t + j / 8))).testBit (j % 8)) ^^
         gmw.bXorFold (rest.map
           (fun s => (s (2 * (NT * 4) + (4 * t + j / 8))).testBit (j % 8)))) := by
    rw [serverAgg_getD _ _ _ _ hm, xorFold_testBit, List.map_map, List.map_cons,
      bXorFold_cons]
    rfl
  -- correction byte and its bounds
  have hcorrlen : (gmw.TripleCorrection (s0 :: rest) NT).length = NT * 4 := by
    simp [gmw.TripleCorrection, ot.XorBytes, gmw.AndBytes, serverAgg_length]
  have hcorrget : (gmw.TripleCorrection (s0 :: rest) NT).getD (4 * t + j / 8) 0 =
      ((gmw.serverAgg (s0 :: rest) 0 (NT * 4)).getD (4 * t + j / 8) 0 &&&
        (gmw.serverAgg (s0 :: rest) (NT * 4) (NT * 4)).getD (4 * t + j / 8) 0) ^^^
      (gmw.serverAgg (s0 :: rest) (2 * (NT * 4)) (NT * 4)).getD (4 * t + j / 8) 0 := by
    simp only [gmw.TripleCorrection, ot.XorBytes, gmw.AndBytes]
    rw [getD_zipWith_fun Nat.xor _ _ _
      (by simp [serverAgg_length]; omega) (by rw [serverAgg_length]; exact hm)]
    rw [getD_zipWith_fun Nat.land _ _ _
      (by rw [serverAgg_length]; exact hm) (by rw [serverAgg_length]; exact hm)]
    rfl
  have hcorrlt : ∀ k, (gmw.TripleCorrection (s0 :: rest) NT).getD k 0 < 256 := by
    intro k
    simp only [gmw.TripleCorrection, ot.XorBytes, gmw.AndBytes]
    exact getD_zipWith_xor_lt
      (getD_zipWith_land_lt _ (serverAgg_getD_lt _ hb _ _))
      (serverAgg_getD_lt _ hb _ _) k
  have hcDlt : ∀ k, (ot.XorBytes (gmw.bytesOf s0 (2 * (NT * 4)) (NT * 4))
      (gmw.TripleCorrection (s0 :: rest) NT)).getD k 0 < 256 := by
    intro k
    simp only [ot.XorBytes]
    exact getD_zipWith_xor_lt
      (bytesOf_getD_lt s0 (hb s0 (by simp)) _ _) hcorrlt k
  have hcd : (ot.XorBytes (gmw.bytesOf s0 (2 * (NT * 4)) (NT * 4))
      (gmw.TripleCorrection (s0 :: rest) NT)).getD (4 * t + j / 8) 0 =
      (gmw.bytesOf s0 (2 * (NT * 4)) (NT * 4)).getD (4 * t + j / 8) 0 ^^^
      (gmw.TripleCorrection (s0 :: rest) NT).getD (4 * t + j / 8) 0 := by
    simp only [ot.XorBytes]
    exact getD_zipWith_fun Nat.xor _ _ _ (by rw [bytesOf_length]; exact hm)
      (by rw [hcorrlen]; exact hm)
  have htail : rest.map ((fun x => x.testBit j) ∘ fun s =>
      gmw.combine (gmw.byte4 (gmw.bytesOf s (2 * (NT * 4)) (NT * 4)) t)) =
      rest.map (fun s => (s (2 * (NT * 4) + (4 * t + j / 8))).testBit (j % 8)) := by
    apply List.map_congr_left
    intro s hs
    simp only [Function.comp_apply]
    rw [combine_byte4_testBit _
      (fun k => bytesOf_getD_lt s (hb s (by simp [hs])) _ _ k) t j hj]
    rw [bytesOf_getD _ _ _ _ hm]
  -- assemble
  rw [hmapa, hmapb, hmapc, hA, hB]
  rw [xorFold_testBit, List.map_cons, bXorFold_cons]
  rw [combine_byte4_testBit _ hcDlt t j hj]
  rw [hcd]
  rw [Nat.testBit_xor, hcorrget, Nat.testBit_xor, Nat.testBit_land,
    bytesOf_getD _ _ _ _ hm, hCagg]
  rw [List.map_map, htail]
  exact bool_xor_cancel _ _ _

/-- C3 witness: a single party with the constant-255 stream, one triple,
bit 0. -/
theorem triple_correction_sound_witness :
    (gmw.xorFold ((gmw.tripleRun (fun _ => 255) [] 1).map
        (fun r => (r.getD 0 default).c))).testBit 0
      = (((gmw.xorFold ((gmw.tripleRun (fun _ => 255) [] 1).map
            (fun r => (r.getD 0 default).a))).testBit 0)
        && ((gmw.xorFold ((gmw.tripleRun (fun _ => 255) [] 1).map
            (fun r => (r.getD 0 default).b))).testBit 0)) :=
  triple_correction_sound (fun _ => 255) []
    (by
      intro s hs p
      simp only [List.mem_cons, List.not_mem_nil, or_false] at hs
      subst hs
      show (255 : Nat) < 256
      decide)
    1 0 0 (by decide) (by decide)

/-! ## C4 — the mask-triple correction -/

theorem getD_append_left {α : Type} (l₁ l₂ : List α) (n : Nat) (d : α)
    (h : n < l₁.length) : (l₁ ++ l₂).getD n d = l₁.getD n d := by
  rw [List.getD_eq_getElem?_getD, List.getElem?_append_left h,
    ← List.getD_eq_getElem?_getD]

theorem getD_append_right {α : Type} (l₁ l₂ : List α) (n : Nat) (d : α)
    (h : l₁.length ≤ n) : (l₁ ++ l₂).getD n d = l₂.getD (n - l₁.length) d := by
  rw [List.getD_eq_getElem?_getD, List.getElem?_append_right h,
    ← List.getD_eq_getElem?_getD]

theorem chunk_length (l : List Nat) (nB i : Nat) : (gmw.chunk l nB i).length = nB := by
  simp [gmw.chunk]

theorem chunk_getD (l : List Nat) (nB i k : Nat) (hk : k < nB) :
    (gmw.chunk l nB i).getD k 0 = l.getD (nB * i + k) 0 := by
  rw [gmw.chunk]
  exact getD_map_range _ _ hk

theorem buildMT_spec (a b c : List Nat) (nB : Nat) :
    ∀ n i r, gmw.buildMT a b c nB i n = some r →
      r.length = n ∧
      ∀ q, q < n → r.getD q default =
        ⟨(bit.GetBit a (i + q)).getD 0, gmw.chunk b nB (i + q),
          gmw.chunk c nB (i + q)⟩ := by
  intro n
  induction n with
  | zero =>
    intro i r h
    simp only [gmw.buildMT, Option.some.injEq] at h
    subst h
    exact ⟨rfl, fun q hq => absurd hq (by omega)⟩
  | succ m ih =>
    intro i r h
    rw [gmw.buildMT] at h
    rcases hg : bit.GetBit a i with _ | v <;> rw [hg] at h
    · simp at h
    · rcases hrec : gmw.buildMT a b c nB (i + 1) m with _ | rest <;> rw [hrec] at h
      · simp at h
      · simp only [Option.map_some', Option.some.injEq] at h
        subst h
        obtain ⟨hlen, hall⟩ := ih (i + 1) rest hrec
        refine ⟨by simp [hlen], ?_⟩
        intro q hq
        cases q with
        | zero =>
          simp only [List.getD_cons_zero, Nat.add_zero]
          rw [hg]
          rfl
        | succ p =>
          have hp : p < m := by omega
          simp only [List.getD_cons_succ]
          rw [hall p hp]
          have hidx : i + 1 + p = i + (p + 1) := by omega
          rw [hidx]

theorem buildCorr_spec (A b c : List Nat) (nB : Nat) :
    ∀ n i r, gmw.buildCorr A b c nB i n = some r →
      r.length = n * nB ∧
      ∀ q k, q < n → k < nB →
        r.getD (nB * q + k) 0 =
          (if (bit.GetBit A (i + q)).getD 0 = 1
           then (ot.XorBytes (gmw.chunk b nB (i + q)) (gmw.chunk c nB (i + q))).getD k 0
           else (gmw.chunk c nB (i + q)).getD k 0) := by
  intro n
  induction n with
  | zero =>
    intro i r h
    simp only [gmw.buildCorr, Option.some.injEq] at h
    subst h
    exact ⟨by simp, fun q k hq _ => absurd hq (by omega)⟩
  | succ m ih =>
    intro i r h
    rw [gmw.buildCorr] at h
    rcases hg : bit.GetBit A i with _ | v <;> rw [hg] at h
    · simp at h
    · rcases hrec : gmw.buildCorr A b c nB (i + 1) m with _ | rest <;> rw [hrec] at h
      · simp at h
      · simp only [Option.map_some', Option.some.injEq] at h
        subst h
        obtain ⟨hlen, hall⟩ := ih (i + 1) rest hrec
        have hchunklen : (if v = 1
            then ot.XorBytes (gmw.chunk b nB i) (gmw.chunk c nB i)
            else gmw.chunk c nB i).length = nB := by
          by_cases hv : v = 1 <;>
            simp [hv, xorBytes_length, chunk_length]
        refine ⟨?_, ?_⟩
        · rw [List.length_append, hchunklen, hlen, Nat.succ_mul]
          omega
        · intro q k hq hk
          cases q with
          | zero =>
            rw [Nat.mul_zero, Nat.zero_add]
            rw [getD_append_left _ _ _ _ (by rw [hchunklen]; omega)]
            simp only [Nat.add_zero, hg, Option.getD_some]
            exact apply_ite (fun l : List Nat => l.getD k 0) _ _ _
          | succ p =>
            have hp : p < m := by omega
            have hge : (if v = 1
                then ot.XorBytes (gmw.chunk b nB i) (gmw.chunk c nB i)
                else gmw.chunk c nB i).length ≤ nB * (p + 1) + k := by
              rw [hchunklen, Nat.mul_succ]
              omega
            rw [getD_append_right _ _ _ _ hge, hchunklen]
            have hidx : nB * (p + 1) + k - nB = nB * p + k := by
              rw [Nat.mul_succ]
              omega
            rw [hidx, hall p k hp hk]
            have hidx2 : i + 1 + p = i + (p + 1) := by omega
            rw [hidx2]

theorem list_eq_of_getD {l₁ l₂ : List Nat} (h : l₁.length = l₂.length)
    (hp : ∀ k, k < l₁.length → l₁.getD k 0 = l₂.getD k 0) : l₁ = l₂ := by
  apply List.ext_getElem h
  intro k h1 h2
  have hk := hp k h1
  rw [List.getD_eq_getElem?_getD, List.getElem?_eq_getElem h1] at hk
  rw [List.getD_eq_getElem?_getD, List.getElem?_eq_getElem h2] at hk
  exact hk

theorem xorBytesFold_length (ls : List (List Nat)) (n : Nat)
    (hl : ∀ l ∈ ls, l.length = n) : (gmw.xorBytesFold ls n).length = n := by
  induction ls with
  | nil => simp [gmw.xorBytesFold]
  | cons l ls ih =>
    show (ot.XorBytes l (gmw.xorBytesFold ls n)).length = n
    rw [xorBytes_length, ih (fun x hx => hl x (by simp [hx])), hl l (by simp)]
    omega

theorem xorBytesFold_getD (ls : List (List Nat)) (n k : Nat) (hk : k < n)
    (hl : ∀ l ∈ ls, l.length = n) :
    (gmw.xorBytesFold ls n).getD k 0 =
      gmw.xorFold (ls.map (fun l => l.getD k 0)) := by
  induction ls with
  | nil =>
    show (List.replicate n 0).getD k 0 = gmw.xorFold []
    rw [List.getD_eq_getElem?_getD, List.getElem?_replicate_of_lt hk]
    rfl
  | cons l ls ih =>
    show (ot.XorBytes l (gmw.xorBytesFold ls n)).getD k 0 = _
    simp only [ot.XorBytes]
    rw [getD_zipWith_fun Nat.xor _ _ _ (by rw [hl l (by simp)]; omega)
      (by rw [xorBytesFold_length ls n (fun x hx => hl x (by simp [hx]))]; omega)]
    rw [ih (fun x hx => hl x (by simp [hx]))]
    rfl

theorem shift_and_one_eq_toNat_testBit (x r : Nat) :
    (x >>> r) &&& 1 = (x.testBit r).toNat := by
  rw [Nat.and_one_is_mod, Nat.shiftRight_eq_div_pow, Nat.testBit_to_div_mod]
  rcases Nat.mod_two_eq_zero_or_one (x / 2 ^ r) with h | h <;> simp [h]

theorem toNat_xor (a b : Bool) : a.toNat ^^^ b.toNat = (a ^^ b).toNat := by
  cases a <;> cases b <;> decide

theorem xorFold_toNat_testBit (ss : List (Nat → Nat)) (f : (Nat → Nat) → Nat)
    (r : Nat) :
    gmw.xorFold (ss.map (fun s => ((f s).testBit r).toNat)) =
      ((gmw.xorFold (ss.map f)).testBit r).toNat := by
  induction ss with
  | nil => simp [gmw.xorFold]
  | cons s tl ih =>
    rw [List.map_cons, xorFold_cons, ih, toNat_xor, List.map_cons, xorFold_cons,
      Nat.testBit_xor]

theorem bool_xor_cancel_all (p r : Bool) : ((p ^^ (p ^^ r)) ^^ r) = false := by
  revert p r
  decide

theorem nat_xor_cancel2 (p q r : Nat) : (p ^^^ (q ^^^ (p ^^^ r))) ^^^ r = q := by
  apply Nat.eq_of_testBit_eq
  intro i
  simp only [Nat.testBit_xor]
  exact bool_xor_cancel _ _ _

theorem nat_xor_cancel_all (p r : Nat) : (p ^^^ (p ^^^ r)) ^^^ r = 0 := by
  apply Nat.eq_of_testBit_eq
  intro i
  simp only [Nat.testBit_xor, Nat.zero_testBit]
  exact bool_xor_cancel_all _ _

/-- C4: with any number of parties (the designated one first) holding PRG
streams known to the commodity server, `numTriples` a multiple of 8 (so the
batch completes — see C10) and any `numBytesTriple`: for every triple index
`t`, the XOR over all parties of the `C` shares equals the XOR of the `B`
shares when the XOR of the `a`-bit shares is 1, and the all-zero string of
length `numBytesTriple` when it is 0. -/
theorem mask_triple_correction_sound (s0 : Nat → Nat) (rest : List (Nat → Nat))
    (nT nB : Nat) (h8 : nT % 8 = 0) (t : Nat) (ht : t < nT) :
    gmw.xorBytesFold ((gmw.maskRun s0 rest nT nB).map
        (fun r => (r.getD t default).C)) nB
      = (if gmw.xorFold ((gmw.maskRun s0 rest nT nB).map
            (fun r => (r.getD t default).a)) = 1
         then gmw.xorBytesFold ((gmw.maskRun s0 rest nT nB).map
            (fun r => (r.getD t default).B)) nB
         else List.replicate nB 0) := by
  have ht8 : t / 8 < nT / 8 := by omega
  have hkk : ∀ k, k < nB → nB * t + k < nT * nB := by
    intro k hk
    calc nB * t + k < nB * (t + 1) := by rw [Nat.mul_succ]; omega
      _ ≤ nB * nT := Nat.mul_le_mul_left nB ht
      _ = nT * nB := Nat.mul_comm _ _
  -- the server completes and its correction is characterized
  have hMCtot : (gmw.MaskTripleCorrection (s0 :: rest) nT nB).isSome := by
    simp only [gmw.MaskTripleCorrection]
    rw [buildCorr_isSome, serverAgg_length]
    intro q hq
    omega
  obtain ⟨corr, hcorr⟩ := Option.isSome_iff_exists.mp hMCtot
  obtain ⟨hcorrlen, hcorrall⟩ :=
    buildCorr_spec (gmw.serverAgg (s0 :: rest) 0 (nT / 8))
      (gmw.serverAgg (s0 :: rest) (nT / 8) (nT * nB))
      (gmw.serverAgg (s0 :: rest) (nT / 8 + nT * nB) (nT * nB)) nB nT 0 corr
      (by
        have h := hcorr
        simp only [gmw.MaskTripleCorrection] at h
        exact h)
  -- every client's batch completes; the t-th mask triple
  have hclient : ∀ (s : Nat → Nat) (co : Option (List Nat)),
      ((gmw.maskTriple s nT nB co).getD []).getD t default =
        ⟨(bit.GetBit (gmw.bytesOf s 0 (nT / 8)) t).getD 0,
         gmw.chunk (gmw.bytesOf s (nT / 8) (nT * nB)) nB t,
         gmw.chunk (match co with
           | none => gmw.bytesOf s (nT / 8 + nT * nB) (nT * nB)
           | some cr =>
               ot.XorBytes (gmw.bytesOf s (nT / 8 + nT * nB) (nT * nB)) cr) nB t⟩ := by
    intro s co
    have htot : (gmw.maskTriple s nT nB co).isSome := by
      simp only [gmw.maskTriple]
      rw [buildMT_isSome, bytesOf_length]
      intro q hq
      omega
    obtain ⟨r, hr⟩ := Option.isSome_iff_exists.mp htot
    rw [hr, Option.getD_some]
    have hr' := hr
    simp only [gmw.maskTriple] at hr'
    obtain ⟨_, hall⟩ := buildMT_spec _ _ _ nB nT 0 r hr'
    have hq := hall t ht
    rw [Nat.zero_add] at hq
    exact hq
  -- the three share lists
  have hmapsa : (gmw.maskRun s0 rest nT nB).map (fun r => (r.getD t default).a) =
      (s0 :: rest).map
        (fun s => (bit.GetBit (gmw.bytesOf s 0 (nT / 8)) t).getD 0) := by
    simp only [gmw.maskRun, List.map_cons, List.map_map]
    congr 1
    · rw [hcorr, hclient s0 (some corr)]
    · apply List.map_congr_left
      intro s _
      simp only [Function.comp_apply]
      rw [hclient s none]
  have hmapsB : (gmw.maskRun s0 rest nT nB).map (fun r => (r.getD t default).B) =
      (s0 :: rest).map
        (fun s => gmw.chunk (gmw.bytesOf s (nT / 8) (nT * nB)) nB t) := by
    simp only [gmw.maskRun, List.map_cons, List.map_map]
    congr 1
    · rw [hcorr, hclient s0 (some corr)]
    · apply List.map_congr_left
      intro s _
      simp only [Function.comp_apply]
      rw [hclient s none]
  have hmapsC : (gmw.maskRun s0 rest nT nB).map (fun r => (r.getD t default).C) =
      gmw.chunk (ot.XorBytes (gmw.bytesOf s0 (nT / 8 + nT * nB) (nT * nB)) corr)
          nB t ::
        rest.map (fun s =>
          gmw.chunk (gmw.bytesOf s (nT / 8 + nT * nB) (nT * nB)) nB t) := by
    simp only [gmw.maskRun, List.map_cons, List.map_map]
    congr 1
    · rw [hcorr, hclient s0 (some corr)]
    · apply List.map_congr_left
      intro s _
      simp only [Function.comp_apply]
      rw [hclient s none]
  -- the aggregated a bit
  have haval : ∀ s : Nat → Nat,
      (bit.GetBit (gmw.bytesOf s 0 (nT / 8)) t).getD 0 =
        ((s (t / 8)).testBit (t % 8)).toNat := by
    intro s
    rw [getBit_in_range _ _ (by rw [bytesOf_length]; exact ht8)]
    rw [Option.getD_some, bytesOf_getD _ _ _ _ ht8, Nat.zero_add]
    exact shift_and_one_eq_toNat_testBit _ _
  have haagg : gmw.xorFold ((s0 :: rest).map
        (fun s => (bit.GetBit (gmw.bytesOf s 0 (nT / 8)) t).getD 0)) =
      (((gmw.serverAgg (s0 :: rest) 0 (nT / 8)).getD (t / 8) 0).testBit
        (t % 8)).toNat := by
    rw [show (s0 :: rest).map
          (fun s => (bit.GetBit (gmw.bytesOf s 0 (nT / 8)) t).getD 0) =
        (s0 :: rest).map (fun s => ((s (t / 8)).testBit (t % 8)).toNat) from
      List.map_congr_left (fun s _ => haval s)]
    rw [xorFold_toNat_testBit (s0 :: rest) (fun s => s (t / 8)) (t % 8)]
    rw [serverAgg_getD _ _ _ _ ht8]
    simp only [Nat.zero_add]
  have hsrv : (bit.GetBit (gmw.serverAgg (s0 :: rest) 0 (nT / 8)) t).getD 0 =
      (((gmw.serverAgg (s0 :: rest) 0 (nT / 8)).getD (t / 8) 0).testBit
        (t % 8)).toNat := by
    rw [getBit_in_range _ _ (by rw [serverAgg_length]; exact ht8), Option.getD_some]
    exact shift_and_one_eq_toNat_testBit _ _
  -- correction bytes of triple t
  have hcorrbyte : ∀ k, k < nB → corr.getD (nB * t + k) 0 =
      (if (((gmw.serverAgg (s0 :: rest) 0 (nT / 8)).getD (t / 8) 0).testBit
            (t % 8)).toNat = 1
       then (gmw.serverAgg (s0 :: rest) (nT / 8) (nT * nB)).getD (nB * t + k) 0 ^^^
            (gmw.serverAgg (s0 :: rest) (nT / 8 + nT * nB) (nT * nB)).getD
              (nB * t + k) 0
       else (gmw.serverAgg (s0 :: rest) (nT / 8 + nT * nB) (nT * nB)).getD
              (nB * t + k) 0) := by
    intro k hk
    have h := hcorrall t k ht hk
    rw [Nat.zero_add, hsrv] at h
    rw [h]
    congr 1
    · simp only [ot.XorBytes]
      rw [getD_zipWith_fun Nat.xor _ _ _ (by rw [chunk_length]; omega)
        (by rw [chunk_length]; omega)]
      rw [chunk_getD _ _ _ _ hk, chunk_getD _ _ _ _ hk]
      rfl
    · rw [chunk_getD _ _ _ _ hk]
  -- pointwise value of the aggregate C bytes
  have hCpoint : ∀ k, k < nB →
      gmw.xorFold ((gmw.chunk (ot.XorBytes
            (gmw.bytesOf s0 (nT / 8 + nT * nB) (nT * nB)) corr) nB t ::
          rest.map (fun s =>
            gmw.chunk (gmw.bytesOf s (nT / 8 + nT * nB) (nT * nB)) nB t)).map
        (fun l => l.getD k 0))
      = (s0 (nT / 8 + nT * nB + (nB * t + k)) ^^^ corr.getD (nB * t + k) 0) ^^^
        gmw.xorFold (rest.map
          (fun s => s (nT / 8 + nT * nB + (nB * t + k)))) := by
    intro k hk
    rw [List.map_cons, xorFold_cons]
    congr 1
    · rw [chunk_getD _ _ _ _ hk]
      simp only [ot.XorBytes]
      rw [getD_zipWith_fun Nat.xor _ _ _ (by rw [bytesOf_length]; exact hkk k hk)
        (by rw [hcorrlen]; exact hkk k hk)]
      rw [bytesOf_getD _ _ _ _ (hkk k hk)]
      rfl
    · rw [List.map_map]
      congr 1
      apply List.map_congr_left
      intro s _
      simp only [Function.comp_apply]
      rw [chunk_getD _ _ _ _ hk, bytesOf_getD _ _ _ _ (hkk k hk)]
  -- pointwise value of the aggregate B bytes
  have hBpoint : ∀ k, k < nB →
      gmw.xorFold (((s0 :: rest).map
          (fun s => gmw.chunk (gmw.bytesOf s (nT / 8) (nT * nB)) nB t)).map
        (fun l => l.getD k 0))
      = gmw.xorFold ((s0 :: rest).map (fun s => s (nT / 8 + (nB * t + k)))) := by
    intro k hk
    rw [List.map_map]
    congr 1
    apply List.map_congr_left
    intro s _
    simp only [Function.comp_apply]
    rw [chunk_getD _ _ _ _ hk, bytesOf_getD _ _ _ _ (hkk k hk)]
  -- element lengths
  have hClens : ∀ l ∈ gmw.chunk (ot.XorBytes
        (gmw.bytesOf s0 (nT / 8 + nT * nB) (nT * nB)) corr) nB t ::
      rest.map (fun s =>
        gmw.chunk (gmw.bytesOf s (nT / 8 + nT * nB) (nT * nB)) nB t),
      l.length = nB := by
    intro l hl
    rcases List.mem_cons.mp hl with rfl | hl
    · exact chunk_length _ _ _
    · obtain ⟨s, _, rfl⟩ := List.mem_map.mp hl
      exact chunk_length _ _ _
  have hBlens : ∀ l ∈ (s0 :: rest).map
      (fun s => gmw.chunk (gmw.bytesOf s (nT / 8) (nT * nB)) nB t),
      l.length = nB := by
    intro l hl
    obtain ⟨s, _, rfl⟩ := List.mem_map.mp hl
    exact chunk_length _ _ _
  -- assemble
  rw [hmapsa, hmapsB, hmapsC, haagg]
  rcases Bool.eq_false_or_eq_true
      (((gmw.serverAgg (s0 :: rest) 0 (nT / 8)).getD (t / 8) 0).testBit (t % 8))
    with hbit | hbit <;> rw [hbit] at hcorrbyte ⊢
  · rw [if_pos (by decide)]
    apply list_eq_of_getD
    · rw [xorBytesFold_length _ _ hClens, xorBytesFold_length _ _ hBlens]
    · intro k hk
      rw [xorBytesFold_length _ _ hClens] at hk
      rw [xorBytesFold_getD _ _ _ hk hClens, hCpoint k hk, hcorrbyte k hk,
        if_pos (by decide)]
      rw [xorBytesFold_getD _ _ _ hk hBlens, hBpoint k hk]
      rw [serverAgg_getD (s0 :: rest) (nT / 8 + nT * nB) _ _ (hkk k hk),
        List.map_cons, xorFold_cons]
      rw [serverAgg_getD (s0 :: rest) (nT / 8) _ _ (hkk k hk)]
      exact nat_xor_cancel2 _ _ _
  · rw [if_neg (by decide)]
    apply list_eq_of_getD
    · rw [xorBytesFold_length _ _ hClens, List.length_replicate]
    · intro k hk
      rw [xorBytesFold_length _ _ hClens] at hk
      rw [xorBytesFold_getD _ _ _ hk hClens, hCpoint k hk, hcorrbyte k hk,
        if_neg (by decide)]
      rw [serverAgg_getD _ _ _ _ (hkk k hk), List.map_cons, xorFold_cons]
      rw [List.getD_eq_getElem?_getD, List.getElem?_replicate_of_lt hk]
      exact nat_xor_cancel_all _ _

/-- C4 witness: a single party with the constant-7 stream, 8 mask triples of
1 byte, triple 0. -/
theorem mask_triple_correction_sound_witness :
    gmw.xorBytesFold ((gmw.maskRun (fun _ => 7) [] 8 1).map
        (fun r => (r.getD 0 default).C)) 1
      = (if gmw.xorFold ((gmw.maskRun (fun _ => 7) [] 8 1).map
            (fun r => (r.getD 0 default).a)) = 1
         then gmw.xorBytesFold ((gmw.maskRun (fun _ => 7) [] 8 1).map
            (fun r => (r.getD 0 default).B)) 1
         else List.replicate 1 0) :=
  mask_triple_correction_sound (fun _ => 7) [] 8 1 (by decide) 0 (by decide)
